import Mathlib

set_option autoImplicit false

/-!
# Verification of the slipscheme schema-to-struct engine

This file gives a shallow embedding of the schema resolution and
type-synthesis engine of `rdeusser/slipscheme` (package `slipscheme`,
single Go source file) and proves or refutes the specification's claims
about it.

Modelling conventions, fixed once here:

* Go maps (`map[string]*Schema`, `map[string]string`) are modelled as
  association lists `List (String × _)`.  The list order models the
  (unspecified) iteration order of a Go map; a `nil` map is modelled as
  `none` of an `Option` so that the code's `!= nil` tests are expressible.
* General recursion (`processSchema` / `mergeSchemas` call each other on
  constructed schemas) is modelled with an explicit fuel parameter that
  bounds the recursion depth; exhausted fuel yields `none`, exactly like
  the error/panic outcomes of the Go code, and every theorem either holds
  for all fuel values or hypothesises a successful run.
* Emission (`writeGoCode`) is modelled in its stdout mode: handing source
  text to the writer appends a `(name, text)` pair to an `emitted` list.
  File-system details (paths, overwrite policy, gofmt) carry no claim and
  are out of the model, as is the optional provenance comment
  (`structComment` is the constant `""`, i.e. the `comment` flag is off).
* The `Root` back-pointer cannot be a field of a tree; since every call
  of the Go pass sets it to the one document root, it is abstracted to a
  Boolean `rootSet` flag (`false` = the Go field is `nil`).
* Character classes (`unicode.IsLetter` etc.) and the vendored helpers
  `strcase.ToCamel` and `cases.Title(language.Und)` are modelled on their
  ASCII behaviour; all inputs in the claims are ASCII.
-/

namespace Slipscheme

/-! ## String helpers (structural, kernel-computable) -/

/-- Byte/codepoint-wise `≤` on char lists, as used by Go's `sort.Strings`
(UTF-8 byte order and codepoint order agree). -/
def charListLe : List Char → List Char → Bool
  | [], _ => true
  | _ :: _, [] => false
  | a :: as, b :: bs =>
    if a < b then true
    else if a = b then charListLe as bs
    else false

/-- `strLeB a b` is `a ≤ b` in the order `sort.Strings` uses. -/
def strLeB (a b : String) : Bool :=
  charListLe a.data b.data

/-- `strings.Split s "/"` (with `filepath.Separator = '/'` on Unix),
on the underlying character list. -/
def splitSlashList : List Char → List (List Char)
  | [] => [[]]
  | c :: cs =>
    match splitSlashList cs with
    | [] => [[]]
    | seg :: segs => if c = '/' then [] :: seg :: segs else (c :: seg) :: segs

/-- `strings.Split s "/"`. -/
def splitSlash (s : String) : List String :=
  (splitSlashList s.data).map String.mk

/-- `strings.HasSuffix`. -/
def hasSuffixStr (s suf : String) : Bool :=
  suf.data.isSuffixOf s.data

/-- `strings.HasPrefix`. -/
def hasPrefixStr (s pre : String) : Bool :=
  pre.data.isPrefixOf s.data

/-- `strings.TrimSuffix`: drop `suf` from the end of `s` when present. -/
def trimSuffixStr (s suf : String) : String :=
  if hasSuffixStr s suf then String.mk (s.data.take (s.data.length - suf.data.length)) else s

/-- `strings.TrimPrefix`: drop `pre` from the front of `s` when present. -/
def trimPrefixStr (s pre : String) : String :=
  if hasPrefixStr s pre then String.mk (s.data.drop pre.data.length) else s

/-- `strings.TrimSpace`, ASCII whitespace. -/
def isSpaceChar (c : Char) : Bool :=
  c = ' ' || c = '\t' || c = '\n' || c = '\r'

/-- `strings.TrimSpace` on a string. -/
def trimSpaces (s : String) : String :=
  String.mk (((s.data.dropWhile isSpaceChar).reverse.dropWhile isSpaceChar).reverse)

/-! ## The schema data model (`type Schema struct`, fields in source order) -/

/-- `type SchemaType int`, the parsed schema-type enum. -/
inductive SchemaType where
  | ANY
  | ARRAY
  | BOOLEAN
  | INTEGER
  | NUMBER
  | NULL
  | OBJECT
  | STRING
deriving DecidableEq

/-- One parsed schema node.  Fields follow the Go `Schema` struct in source
order; `Root *Schema` is abstracted to the flag `rootSet` (see the file
header) and the root-only `raw` document is not carried (the raw-document
fallback of `setRoot` is outside the model). -/
inductive Schema where
  | mk
    (title : String)
    (id : String)
    (type : SchemaType)
    (description : String)
    (definitions : Option (List (String × Schema)))
    (properties : Option (List (String × Schema)))
    (additionalProperties : Bool)
    (patternProperties : Option (List (String × Schema)))
    (ref : String)
    (items : Option Schema)
    (oneOf : List Schema)
    (const : String)
    (enum : List String)
    (rootSet : Bool)

namespace Schema

def title : Schema → String
  | .mk t _ _ _ _ _ _ _ _ _ _ _ _ _ => t

def id : Schema → String
  | .mk _ i _ _ _ _ _ _ _ _ _ _ _ _ => i

def type : Schema → SchemaType
  | .mk _ _ ty _ _ _ _ _ _ _ _ _ _ _ => ty

def description : Schema → String
  | .mk _ _ _ d _ _ _ _ _ _ _ _ _ _ => d

def definitions : Schema → Option (List (String × Schema))
  | .mk _ _ _ _ ds _ _ _ _ _ _ _ _ _ => ds

def properties : Schema → Option (List (String × Schema))
  | .mk _ _ _ _ _ ps _ _ _ _ _ _ _ _ => ps

def additionalProperties : Schema → Bool
  | .mk _ _ _ _ _ _ ap _ _ _ _ _ _ _ => ap

def patternProperties : Schema → Option (List (String × Schema))
  | .mk _ _ _ _ _ _ _ pp _ _ _ _ _ _ => pp

def ref : Schema → String
  | .mk _ _ _ _ _ _ _ _ r _ _ _ _ _ => r

def items : Schema → Option Schema
  | .mk _ _ _ _ _ _ _ _ _ it _ _ _ _ => it

def oneOf : Schema → List Schema
  | .mk _ _ _ _ _ _ _ _ _ _ os _ _ _ => os

def const : Schema → String
  | .mk _ _ _ _ _ _ _ _ _ _ _ c _ _ => c

def enum : Schema → List String
  | .mk _ _ _ _ _ _ _ _ _ _ _ _ e _ => e

def rootSet : Schema → Bool
  | .mk _ _ _ _ _ _ _ _ _ _ _ _ _ rb => rb

/-- The zero `Schema` value (what a failed Go map lookup would yield). -/
def empty : Schema :=
  .mk "" "" .ANY "" none none false none "" none [] "" [] false

/-- Replace the title (the back-fill `v.Title = k` of `setRoot`). -/
def withTitle : Schema → String → Schema
  | .mk _ i ty d ds ps ap pp r it os c e rb, t => .mk t i ty d ds ps ap pp r it os c e rb

/-- `unicode.IsLetter r || unicode.IsDigit r`, on ASCII. -/
def isAlnumChar (c : Char) : Bool :=
  c.isAlpha || c.isDigit

/-- The `strings.Map` in `Schema.Name`: keep letters and digits, drop the
rest. -/
def stripNonAlnum (s : String) : String :=
  String.mk (s.data.filter isAlnumChar)

/-- `func (s *Schema) Name() string`: the title, else the last segment of
the `/`-split id with non-letter/non-digit characters stripped, else the
description. -/
def Name (s : Schema) : String :=
  let name := s.title
  let name :=
    if name = "" then Schema.stripNonAlnum ((splitSlash s.id).getLastD "") else name
  if name = "" then s.description else name

end Schema

/-! ## The naming engine: `strcase.ToCamel`, `cases.Title`, `toCamel` -/

/-- One step of `strcase.toCamelInitCase` (vendored
`github.com/iancoleman/strcase`, `initCase = true`, no acronym overrides
configured): the accumulator is (capitalise-next flag, output so far). -/
def camelStep (st : Bool × List Char) (c : Char) : Bool × List Char :=
  let capNext := st.1
  let acc := st.2
  let isUp := 'A' ≤ c && c ≤ 'Z'
  let isLow := 'a' ≤ c && c ≤ 'z'
  let c := if capNext && isLow then Char.ofNat (c.toNat - 32) else c
  if isUp || isLow then (false, acc ++ [c])
  else if '0' ≤ c && c ≤ '9' then (true, acc ++ [c])
  else (c = '_' || c = ' ' || c = '-' || c = '.', acc)

/-- `strcase.ToCamel`: trim space, then fold `camelStep` with the
capitalise flag initially set. -/
def toCamelGo (s : String) : String :=
  String.mk (((trimSpaces s).data.foldl camelStep (true, [])).2)

/-- `cases.Title(language.Und).String`, modelled on ASCII input: a word is
a maximal run of letters and digits; the first letter of a word is
uppercased and later letters lowercased; other characters pass through. -/
def caserTitle (s : String) : String :=
  let step := fun (st : Bool × List Char) (c : Char) =>
    let inWord := st.1
    let acc := st.2
    if c.isAlpha then (true, acc ++ [if inWord then c.toLower else c.toUpper])
    else if c.isDigit then (true, acc ++ [c])
    else (false, acc ++ [c])
  String.mk ((s.data.foldl step (false, [])).2)

/-- The processor configuration the synthesis core reads: the merged
name-replacement table (`s.replacements`), with the list order standing
for Go's unspecified map iteration order. -/
structure Cfg where
  replacements : List (String × String)

/-- `var defaultReplacements`, in source order. -/
def defaultReplacements : List (String × String) :=
  [("Id", "ID"), ("Http", "HTTP"), ("Https", "HTTPS"), ("Api", "API"),
   ("Url", "URL"), ("Json", "JSON"), ("Xml", "XML"), ("Html", "HTML")]

/-- `func (s *SchemaProcessor) toCamel`: convert with `strcase.ToCamel`;
return on the first suffix match in the replacement table; otherwise apply
every prefix match cumulatively. -/
def toCamel (cfg : Cfg) (str : String) : String :=
  let word := toCamelGo str
  match cfg.replacements.find? (fun kv => hasSuffixStr word kv.1) with
  | some kv => trimSuffixStr word kv.1 ++ kv.2
  | none =>
    cfg.replacements.foldl
      (fun w kv => if hasPrefixStr w kv.1 then kv.2 ++ trimPrefixStr w kv.1 else w) word

/-! ## Association-list operations standing for Go map reads and writes -/

/-- Go map read `m[k]` (first matching key; our well-formed lists have
distinct keys). -/
def lookupA {α : Type} (l : List (String × α)) (k : String) : Option α :=
  (l.find? (fun kv => kv.1 = k)).map (fun kv => kv.2)

/-- Go map write `m[k] = v`: replace in place, else append. -/
def upsertA {α : Type} (l : List (String × α)) (k : String) (v : α) : List (String × α) :=
  match l with
  | [] => [(k, v)]
  | kv :: rest => if kv.1 = k then (k, v) :: rest else kv :: upsertA rest k v

/-- The keys of an association list. -/
def keysA {α : Type} (l : List (String × α)) : List String :=
  l.map (fun kv => kv.1)

/-- The order `sort.Strings` sorts by, as a proposition. -/
def strLe (a b : String) : Prop :=
  strLeB a b = true

instance : DecidableRel strLe := fun a b => instDecidableEqBool (strLeB a b) true

/-- `sort.Strings` (ascending byte order). -/
def sortStrings (l : List String) : List String :=
  l.insertionSort strLe

/-! ## The type registry / emitter -/

/-- The per-run mutable state of a `SchemaProcessor`: the `processed`
seen-set (a `map[string]bool` whose entries are only ever set `true`, so a
name list) and, standing for the output stream, the list of
`(typeName, sourceText)` units handed to the writer, in order. -/
structure St where
  processed : List String
  emitted : List (String × String)
deriving DecidableEq

/-- The state at the start of a run. -/
def st0 : St := ⟨[], []⟩

/-- `func (s *SchemaProcessor) writeGoCode(typeName, code string) error`,
stdout mode: a no-op when the name was already processed, else mark it
processed and hand the text to the writer. -/
def writeGoCode (typeName code : String) (st : St) : St :=
  if typeName ∈ st.processed then st
  else { processed := typeName :: st.processed, emitted := st.emitted ++ [(typeName, code)] }

/-! ## The type synthesizer (`processSchema`) and union merger
(`mergeSchemas`)

The mutual recursion is driven by a fuel parameter (first argument); each
nested call runs with one unit less.  `none` covers the Go error/panic
outcomes (nil `Items` dereference, merging zero schemas) as well as
exhausted fuel; all claims either quantify over fuel or hypothesise a
successful (`some`) run. -/

/-- One struct field line:
`"    %s %s \x60json:\x22%s,omitempty\x22 yaml:\x22%s,omitempty\x22\x60\n"`
with the camel-cased key and the synthesized field type. -/
def fieldLine (cfg : Cfg) (k subTypeName : String) : String :=
  "    " ++ toCamel cfg k ++ " " ++ subTypeName ++ " \x60json:\x22" ++ k ++
    ",omitempty\x22 yaml:\x22" ++ k ++ ",omitempty\x22\x60\n"

/-- One inline (`oneOf` group) field line:
`"    %s %s \x60json:\x22,inline\x22 yaml:\x22,inline\x22\x60\n"`. -/
def inlineLine (cfg : Cfg) (k oneOfTypeName : String) : String :=
  "    " ++ toCamel cfg k ++ " " ++ oneOfTypeName ++
    " \x60json:\x22,inline\x22 yaml:\x22,inline\x22\x60\n"

/-- `allProperties[p]` of `mergeSchemas`: in how many alternatives the
property key occurs (each alternative's map contributes at most once). -/
def allCount (schemas : List Schema) (p : String) : Nat :=
  (schemas.filter (fun sch => (lookupA (sch.properties.getD []) p).isSome)).length

/-- The seeding loop of `mergeSchemas`:
`uncommonSchemas[schema.Name()] = &Schema{Description: name, Type: schema.Type, Properties: {}}`,
as an association list from alternative name to (type, accumulated
properties). -/
def seedGroups (schemas : List Schema) : List (String × (SchemaType × List (String × Schema))) :=
  schemas.foldl (fun acc sch => upsertA acc sch.Name (sch.type, [])) []

/-- Write a property into the group of the named alternative
(`uncommonSchemas[schema.Name()].Properties[p] = v`; the name is always
seeded). -/
def addToGroup (groups : List (String × (SchemaType × List (String × Schema))))
    (name p : String) (v : Schema) :
    List (String × (SchemaType × List (String × Schema))) :=
  groups.map (fun g => if g.1 = name then (g.1, (g.2.1, upsertA g.2.2 p v)) else g)

/-- One property of one alternative being distributed: a key occurring in
more than one alternative goes to the merged node's properties, the rest
to that alternative's group. -/
def innerStep (schemas : List Schema) (name : String)
    (acc : List (String × Schema) × List (String × (SchemaType × List (String × Schema))))
    (pv : String × Schema) :
    List (String × Schema) × List (String × (SchemaType × List (String × Schema))) :=
  if allCount schemas pv.1 > 1 then (upsertA acc.1 pv.1 pv.2, acc.2)
  else (acc.1, addToGroup acc.2 name pv.1 pv.2)

/-- One alternative being distributed: all its properties in map order. -/
def outerStep (schemas : List Schema)
    (acc : List (String × Schema) × List (String × (SchemaType × List (String × Schema))))
    (sch : Schema) :
    List (String × Schema) × List (String × (SchemaType × List (String × Schema))) :=
  (sch.properties.getD []).foldl (innerStep schemas sch.Name) acc

/-- The distribution loop of `mergeSchemas`: every property of every
alternative goes to the merged node when its key occurs in more than one
alternative, else to that alternative's group. -/
def distributeProps (schemas : List Schema) :
    List (String × Schema) × List (String × (SchemaType × List (String × Schema))) :=
  schemas.foldl (outerStep schemas) ([], seedGroups schemas)

/-- The merged parent node of `mergeSchemas`:
`&Schema{Description: parent.Name(), Root: parent.Root, Properties: merged, Type: OBJECT}`. -/
def mergedParentOf (parent : Schema) (mergedProps : List (String × Schema)) : Schema :=
  .mk "" "" .OBJECT parent.Name none (some mergedProps) false none "" none [] "" [] parent.rootSet

/-- One per-alternative group as a schema node:
`&Schema{Description: name, Root: parent.Root, Properties: props, Type: ty}`. -/
def groupSchemaOf (parent : Schema) (name : String) (ty : SchemaType)
    (props : List (String × Schema)) : Schema :=
  .mk "" "" ty name none (some props) false none "" none [] "" [] parent.rootSet

mutual

/-- `func (s *SchemaProcessor) processSchema(schema *Schema) (typeName string, err error)`,
dispatching on the schema type exactly as the Go switch does. -/
def processSchema : Nat → Cfg → Schema → St → Option (String × St)
  | 0, _, _, _ => none
  | fuel + 1, cfg, s, st =>
    match s.type with
    | .OBJECT =>
      let typeName := toCamel cfg s.Name
      match s.properties with
      | some ps =>
        match processKeyList fuel cfg ps (sortStrings (keysA ps)) st with
        | none => none
        | some (fieldsText, st1) =>
          let typeData := "type " ++ typeName ++ " struct \x7b\n" ++ fieldsText ++ "\x7d\n\n"
          some ("*" ++ typeName, writeGoCode typeName typeData st1)
      | none =>
        match s.patternProperties with
        | some pps => processPatternList fuel cfg pps (sortStrings (keysA pps)) typeName st
        | none =>
          if s.additionalProperties then some ("map[string]any", st)
          else some (typeName, st)
    | .ARRAY =>
      match s.items with
      | none => none
      | some it =>
        match processSchema fuel cfg it st with
        | none => none
        | some (subTypeName, st1) =>
          let tn0 := toCamel cfg s.Name
          let tn1 :=
            if tn0 = "" then
              if caserTitle subTypeName = subTypeName then
                if hasSuffixStr subTypeName "s" then subTypeName ++ "es" else subTypeName ++ "s"
              else ""
            else tn0
          if tn1 ≠ "" then
            let tn := trimPrefixStr tn1 "*"
            some (tn, writeGoCode tn ("type " ++ tn ++ " []" ++ subTypeName ++ "\n\n") st1)
          else some ("[]" ++ subTypeName, st1)
    | .ANY =>
      if s.oneOf.length > 0 then mergeSchemas fuel cfg s s.oneOf st
      else if s.const ≠ "" then some ("string", st)
      else if s.enum.length > 0 then some ("string", st)
      else some ("any", st)
    | .BOOLEAN => some ("bool", st)
    | .INTEGER => some ("int", st)
    | .NUMBER => some ("float64", st)
    | .NULL => some ("any", st)
    | .STRING => some ("string", st)

/-- The sorted-key field loop shared by the `Properties` branch of
`processSchema` and the common-field loop of `mergeSchemas`: process each
key's value schema in order and accumulate the field lines. -/
def processKeyList : Nat → Cfg → List (String × Schema) → List String → St →
    Option (String × St)
  | 0, _, _, _, _ => none
  | _ + 1, _, _, [], st => some ("", st)
  | fuel + 1, cfg, ps, k :: ks, st =>
    let v := (lookupA ps k).getD Schema.empty
    match processSchema fuel cfg v st with
    | none => none
    | some (subTypeName, st1) =>
      match processKeyList fuel cfg ps ks st1 with
      | none => none
      | some (rest, st2) => some (fieldLine cfg k subTypeName ++ rest, st2)

/-- The sorted `PatternProperties` loop of `processSchema`: a value type
unchanged by title-casing yields a named `<Type>Map` emission; otherwise
the result is the inline `map[string]<type>` expression.  The running
`typeName` of the Go loop is threaded through. -/
def processPatternList : Nat → Cfg → List (String × Schema) → List String → String → St →
    Option (String × St)
  | 0, _, _, _, _, _ => none
  | _ + 1, _, _, [], typeName, st => some (typeName, st)
  | fuel + 1, cfg, pps, k :: ks, _, st =>
    let v := (lookupA pps k).getD Schema.empty
    match processSchema fuel cfg v st with
    | none => none
    | some (subTypeName, st1) =>
      if caserTitle subTypeName = subTypeName then
        let tn := trimPrefixStr (subTypeName ++ "Map") "*"
        let typeData := "type " ++ tn ++ " map[string]" ++ subTypeName ++ "\n\n"
        processPatternList fuel cfg pps ks tn (writeGoCode tn typeData st1)
      else
        processPatternList fuel cfg pps ks ("map[string]" ++ subTypeName) st1

/-- `func (s *SchemaProcessor) mergeSchemas(parent *Schema, schemas ...*Schema)`:
zero alternatives is an error, one degenerates to direct synthesis, two or
more build the common/uncommon split and emit one merged struct whose
uncommon groups are inline fields. -/
def mergeSchemas : Nat → Cfg → Schema → List Schema → St → Option (String × St)
  | 0, _, _, _, _ => none
  | fuel + 1, cfg, parent, schemas, st =>
    match schemas with
    | [] => none
    | [one] => processSchema fuel cfg one st
    | _ =>
      let mergedProps := (distributeProps schemas).1
      let groups := (distributeProps schemas).2
      let mergedParent := mergedParentOf parent mergedProps
      let typeName := toCamel cfg mergedParent.Name
      match processKeyList fuel cfg mergedProps (sortStrings (keysA mergedProps)) st with
      | none => none
      | some (commonText, st1) =>
        let oneOfKeys := sortStrings (keysA (groups.filter (fun g => g.2.2.length > 0)))
        match processGroupList fuel cfg parent groups oneOfKeys st1 with
        | none => none
        | some (groupText, st2) =>
          let typeData := "type " ++ typeName ++ " struct \x7b\n" ++ commonText ++
            groupText ++ "\x7d\n\n"
          some (typeName, writeGoCode typeName typeData st2)

/-- The `oneOfKeys` loop of `mergeSchemas`: synthesize each non-empty
uncommon group (as an object schema) and add it as an inline field line. -/
def processGroupList : Nat → Cfg → Schema →
    List (String × (SchemaType × List (String × Schema))) → List String → St →
    Option (String × St)
  | 0, _, _, _, _, _ => none
  | _ + 1, _, _, _, [], st => some ("", st)
  | fuel + 1, cfg, parent, groups, k :: ks, st =>
    let g := (lookupA groups k).getD (.ANY, [])
    match processSchema fuel cfg (groupSchemaOf parent k g.1 g.2) st with
    | none => none
    | some (oneOfTypeName, st1) =>
      match processGroupList fuel cfg parent groups ks st1 with
      | none => none
      | some (rest, st2) => some (inlineLine cfg k oneOfTypeName ++ rest, st2)

end

/-! ## The reference resolver (`func setRoot(root, schema *Schema)`)

The Go pass mutates a shared graph in place; the model is a tree
transformation.  A `$ref` walk is performed against the supplied `root`
tree; this agrees with the in-place code whenever the walk lands in parts
of the document the pass itself does not rewrite (in particular anywhere
under `definitions`, which `setRoot` never traverses).  The raw-document
fallback for out-of-spec paths (and the abrupt halt on an unlocatable
path) is outside the model: a walk that leaves the typed graph returns
`none` and the node is left as recursed. -/

/-- The `ctx any` of the `$ref` walk: either a schema node or one of the
typed `map[string]*Schema` fields. -/
inductive WalkCtx where
  | sch (s : Schema)
  | smap (m : List (String × Schema))

/-- One segment of the `$ref` walk.  A failed type assertion
(`ctx.(*Schema)` on a map) panics in Go; an unknown segment on a schema
enters the unmodelled raw fallback; both are `none` here. -/
def walkOne (root : Schema) (ctx : WalkCtx) (part : String) : Option WalkCtx :=
  if part = "#" then some (.sch root)
  else if part = "definitions" then
    match ctx with
    | .sch s => some (.smap (s.definitions.getD []))
    | .smap _ => none
  else if part = "properties" then
    match ctx with
    | .sch s => some (.smap (s.properties.getD []))
    | .smap _ => none
  else if part = "patternProperties" then
    match ctx with
    | .sch s => some (.smap (s.patternProperties.getD []))
    | .smap _ => none
  else if part = "items" then
    match ctx with
    | .sch s => (s.items).map WalkCtx.sch
    | .smap _ => none
  else
    match ctx with
    | .smap m => (lookupA m part).map WalkCtx.sch
    | .sch _ => none

/-- The whole `$ref` walk over the split pointer segments. -/
def refWalk (root : Schema) : WalkCtx → List String → Option WalkCtx
  | ctx, [] => some ctx
  | ctx, part :: rest =>
    match walkOne root ctx part with
    | none => none
    | some ctx2 => refWalk root ctx2 rest

/-- `func setRoot(root, schema *Schema)` as a tree transformation: set the
root flag, recurse into properties (back-filling a missing name from the
property key), pattern properties, items and `oneOf` — `definitions` is
not traversed — and finally, when a `$ref` is present and its walk ends on
a schema node, replace the whole node by that result (`*schema = *cast`).
The fuel bounds the depth; the pass is run with fuel at least the tree
height. -/
def setRoot : Nat → Schema → Schema → Schema
  | 0, _, s => s
  | fuel + 1, root, s =>
    match s with
    | .mk t i ty d ds ps ap pp r it os c e _ =>
      let ps2 := ps.map (List.map (fun kv =>
        let v := setRoot fuel root kv.2
        (kv.1, if v.Name = "" then v.withTitle kv.1 else v)))
      let pp2 := pp.map (List.map (fun kv => (kv.1, setRoot fuel root kv.2)))
      let it2 := it.map (setRoot fuel root)
      let os2 := os.map (setRoot fuel root)
      let s1 := Schema.mk t i ty d ds ps2 ap pp2 r it2 os2 c e true
      if r = "" then s1
      else
        match refWalk root (.sch s1) (splitSlash r) with
        | some (.sch target) => target
        | _ => s1

/-! ## The constructor (`NewSchemaProcessor`) and its options -/

/-- The option-visible state of a `SchemaProcessor` under construction
(the `stdio` readers/writers carry no claim). -/
structure PState where
  outputDir : String
  packageName : String
  overwrite : Bool
  stdoutFlag : Bool
  format : Bool
  comment : Bool
  replacements : Option (List (String × String))
deriving DecidableEq

/-- The zero-value processor the constructor starts from (`replacements`
is a nil map). -/
def initPState : PState :=
  ⟨"", "", false, false, false, false, none⟩

/-- The exported `SchemaProcessorOption` constructors.  `Replacements m`
sets the field to the caller's map, which may itself be nil (`none`). -/
inductive SPOption where
  | outputDir (dir : String)
  | packageName (nm : String)
  | overwrite (b : Bool)
  | stdoutOpt (b : Bool)
  | formatOpt (b : Bool)
  | comment (b : Bool)
  | replacements (m : Option (List (String × String)))
deriving DecidableEq

/-- Apply one option closure to the processor under construction. -/
def applyOpt (o : SPOption) (s : PState) : PState :=
  match o with
  | .outputDir d => { s with outputDir := d }
  | .packageName n => { s with packageName := n }
  | .overwrite b => { s with overwrite := b }
  | .stdoutOpt b => { s with stdoutFlag := b }
  | .formatOpt b => { s with format := b }
  | .comment b => { s with comment := b }
  | .replacements m => { s with replacements := m }

/-- Merge the non-negotiable `defaultReplacements` into the configured
table: existing keys are overwritten in place, new keys appended (list
position models map iteration order). -/
def mergeDefaults (t : List (String × String)) : List (String × String) :=
  defaultReplacements.foldl (fun acc kv => upsertA acc kv.1 kv.2) t

/-- `func NewSchemaProcessor(options ...SchemaProcessorOption) *SchemaProcessor`:
apply the options to the zero value, then merge the default replacements
into `s.replacements`.  When that field is still a nil map the first
write of the (non-empty) default table panics — modelled as `none`. -/
def NewSchemaProcessor (options : List SPOption) : Option PState :=
  let s := options.foldl (fun st o => applyOpt o st) initPState
  match s.replacements with
  | none => none
  | some t => some { s with replacements := some (mergeDefaults t) }

/-! ## Predicates and auxiliary definitions used by the claim statements -/

/-- The names of the emitted definitions of a run, in emission order. -/
def emittedNames (st : St) : List String :=
  st.emitted.map (fun e => e.1)

/-- The registry invariant: no name is emitted twice, and every emitted
name is recorded in the processed set. -/
def Inv (st : St) : Prop :=
  (emittedNames st).Nodup ∧ ∀ n ∈ emittedNames st, n ∈ st.processed

/-- Two association lists have the same key set: each key list has no
duplicates and they are permutations of one another. -/
def KeysMatch {α : Type} (l₁ l₂ : List (String × α)) : Prop :=
  (keysA l₁).Nodup ∧ (keysA l₂).Nodup ∧ List.Perm (keysA l₁) (keysA l₂)

/-- "Same document up to the on-disk order of its JSON objects": all
scalar fields agree, the `definitions`/`properties`/`patternProperties`
maps have the same keys (each without duplicates, in any order) with
pointwise-equivalent values, `items` agree up to equivalence and `oneOf`
(a JSON array, whose order is meaningful) is pointwise equivalent. -/
inductive SEquiv : Schema → Schema → Prop where
  | mk {t i : String} {ty : SchemaType} {d : String}
      {ds₁ ds₂ ps₁ ps₂ pp₁ pp₂ : Option (List (String × Schema))}
      {ap : Bool} {r : String} {it₁ it₂ : Option Schema} {os₁ os₂ : List Schema}
      {c : String} {e : List String} {rb : Bool}
      (hdsn : ds₁.isSome = ds₂.isSome)
      (hdsK : ∀ l₁ l₂, ds₁ = some l₁ → ds₂ = some l₂ → KeysMatch l₁ l₂)
      (hdsV : ∀ l₁ l₂ k v₁ v₂, ds₁ = some l₁ → ds₂ = some l₂ →
        lookupA l₁ k = some v₁ → lookupA l₂ k = some v₂ → SEquiv v₁ v₂)
      (hpsn : ps₁.isSome = ps₂.isSome)
      (hpsK : ∀ l₁ l₂, ps₁ = some l₁ → ps₂ = some l₂ → KeysMatch l₁ l₂)
      (hpsV : ∀ l₁ l₂ k v₁ v₂, ps₁ = some l₁ → ps₂ = some l₂ →
        lookupA l₁ k = some v₁ → lookupA l₂ k = some v₂ → SEquiv v₁ v₂)
      (hppn : pp₁.isSome = pp₂.isSome)
      (hppK : ∀ l₁ l₂, pp₁ = some l₁ → pp₂ = some l₂ → KeysMatch l₁ l₂)
      (hppV : ∀ l₁ l₂ k v₁ v₂, pp₁ = some l₁ → pp₂ = some l₂ →
        lookupA l₁ k = some v₁ → lookupA l₂ k = some v₂ → SEquiv v₁ v₂)
      (hitn : it₁.isSome = it₂.isSome)
      (hit : ∀ a₁ a₂, it₁ = some a₁ → it₂ = some a₂ → SEquiv a₁ a₂)
      (hlen : os₁.length = os₂.length)
      (hos : ∀ p ∈ List.zip os₁ os₂, SEquiv p.1 p.2) :
      SEquiv (.mk t i ty d ds₁ ps₁ ap pp₁ r it₁ os₁ c e rb)
        (.mk t i ty d ds₂ ps₂ ap pp₂ r it₂ os₂ c e rb)

/-- Equivalence of two property maps: same key set and pointwise
`SEquiv` values. -/
def AEquivL (l₁ l₂ : List (String × Schema)) : Prop :=
  KeysMatch l₁ l₂ ∧
    ∀ k v₁ v₂, lookupA l₁ k = some v₁ → lookupA l₂ k = some v₂ → SEquiv v₁ v₂

/-- Equivalence of two optional lookup results: both absent, or both
present with `SEquiv` values. -/
def OptSEquiv (o₁ o₂ : Option Schema) : Prop :=
  o₁.isSome = o₂.isSome ∧ ∀ v₁ v₂, o₁ = some v₁ → o₂ = some v₂ → SEquiv v₁ v₂

/-- One parent-to-child traversal edge of the reference-resolver pass:
into a property value, a pattern-property value, the items schema, or a
`oneOf` alternative (`definitions` is deliberately absent: the pass never
walks it). -/
inductive Child : Schema → Schema → Prop where
  | prop {s v : Schema} {k : String} {l : List (String × Schema)}
      (hl : s.properties = some l) (hm : (k, v) ∈ l) : Child s v
  | pat {s v : Schema} {k : String} {l : List (String × Schema)}
      (hl : s.patternProperties = some l) (hm : (k, v) ∈ l) : Child s v
  | item {s v : Schema} (hi : s.items = some v) : Child s v
  | one {s v : Schema} (ho : v ∈ s.oneOf) : Child s v

/-- Reachability along traversal edges in exactly `d` steps. -/
inductive ReachD : Nat → Schema → Schema → Prop where
  | refl (s : Schema) : ReachD 0 s s
  | step {d : Nat} {s c t : Schema} (hc : Child s c) (hr : ReachD d c t) : ReachD (d + 1) s t

/-- No node within `fuel` levels carries a `$ref` (fuel-bounded, like the
pass itself; `false` on exhausted fuel). -/
def refFreeB : Nat → Schema → Bool
  | 0, _ => false
  | fuel + 1, s =>
    s.ref = "" &&
    (s.properties.getD []).all (fun kv => refFreeB fuel kv.2) &&
    (s.patternProperties.getD []).all (fun kv => refFreeB fuel kv.2) &&
    (match s.items with
     | some it => refFreeB fuel it
     | none => true) &&
    s.oneOf.all (fun o => refFreeB fuel o)

/-- The identifier conversion as the specification words it: apply the
first matching suffix replacement **and afterwards** the prefix
replacements.  (The code instead returns immediately on a suffix match;
this definition exists only to be compared against `toCamel`.) -/
def toIdentifierSpec (cfg : Cfg) (str : String) : String :=
  let word := toCamelGo str
  let word :=
    match cfg.replacements.find? (fun kv => hasSuffixStr word kv.1) with
    | some kv => trimSuffixStr word kv.1 ++ kv.2
    | none => word
  cfg.replacements.foldl
    (fun w kv => if hasPrefixStr w kv.1 then kv.2 ++ trimPrefixStr w kv.1 else w) word

/-- The default configuration: a processor whose only replacements are the
built-in table (what `NewSchemaProcessor(Replacements(map[string]string{}))`
produces). -/
def defaultCfg : Cfg :=
  { replacements := defaultReplacements }

/-- A bare `{"type":"string"}` schema node. -/
def strSchema : Schema :=
  .mk "" "" .STRING "" none none false none "" none [] "" [] false

/-- A bare `{"type":"integer"}` schema node. -/
def intSchema : Schema :=
  .mk "" "" .INTEGER "" none none false none "" none [] "" [] false

/-- `{"title":"Thing","type":"object","properties":{"a":string,"b":integer}}`
with the properties in on-disk order `a`, `b`. -/
def permDocA : Schema :=
  .mk "Thing" "" .OBJECT "" none (some [("a", strSchema), ("b", intSchema)]) false none ""
    none [] "" [] false

/-- The same document with the properties in on-disk order `b`, `a`. -/
def permDocB : Schema :=
  .mk "Thing" "" .OBJECT "" none (some [("b", intSchema), ("a", strSchema)]) false none ""
    none [] "" [] false

/-- The type expression a schema synthesizes to at the given fuel (taken
from the initial state; by `fst_indep` the same string results from any
start state). -/
def typeNameAt (fuel : Nat) (cfg : Cfg) (s : Schema) : Option String :=
  (processSchema fuel cfg s st0).map Prod.fst

/-- Concatenation of a list of source-text fragments. -/
def strJoin : List String → String
  | [] => ""
  | x :: xs => x ++ strJoin xs

/-- The struct source text predicted for an object schema with property
map `ps` and name `nm`: one field line per key, keys in sorted order, each
field typed by the recursive synthesis of its value schema. -/
def structTextOf (fuel : Nat) (cfg : Cfg) (ps : List (String × Schema)) (nm : String) : String :=
  "type " ++ nm ++ " struct \x7b\n" ++
    strJoin ((sortStrings (keysA ps)).map (fun k =>
      fieldLine cfg k ((typeNameAt fuel cfg ((lookupA ps k).getD Schema.empty)).getD ""))) ++
    "\x7d\n\n"

/-! ### Concrete schemas and configurations used in examples,
witnesses and counterexamples -/

/-- `{"name": {"type":"string"}, "id": {"type":"integer"}}`. -/
def petProps : List (String × Schema) :=
  [("name", strSchema), ("id", intSchema)]

/-- `{"title":"Pet","type":"object","properties":{"name":…,"id":…}}`. -/
def petSchema : Schema :=
  .mk "Pet" "" .OBJECT "" none (some petProps) false none "" none [] "" [] false

/-- A schema with no title and id `https://example.com/schemas/person.json`. -/
def personSchema : Schema :=
  .mk "" "https://example.com/schemas/person.json" .ANY "" none none false none "" none [] "" [] false

/-- `{"title":"Foo","type":"object"}` with no properties, no pattern
properties, `additionalProperties` false. -/
def bareFooSchema : Schema :=
  .mk "Foo" "" .OBJECT "" none none false none "" none [] "" [] false

/-- A node carrying `"$ref": "#/definitions/Foo"`. -/
def refNodeSchema : Schema :=
  .mk "" "" .ANY "" none none false none "#/definitions/Foo" none [] "" [] false

/-- A document whose property `p` references `#/definitions/Foo`. -/
def refDocSchema : Schema :=
  .mk "" "" .OBJECT "" (some [("Foo", strSchema)]) (some [("p", refNodeSchema)]) false none ""
    none [] "" [] false

/-- A replacement table in source order. -/
def cfgA : Cfg := ⟨[("Http", "HTTP"), ("Https", "HTTPS")]⟩

/-- The same replacement table with its two entries swapped — the same Go
map under a different iteration order. -/
def cfgB : Cfg := ⟨[("Https", "HTTPS"), ("Http", "HTTP")]⟩

/-- `{"title":"httpsServer","type":"object","properties":{"a":string}}`. -/
def httpsDoc : Schema :=
  .mk "httpsServer" "" .OBJECT "" none (some [("a", strSchema)]) false none "" none [] "" [] false

/-- An unnamed `oneOf` alternative with properties `a`, `b`. -/
def altAB : Schema :=
  .mk "" "" .OBJECT "" none (some [("a", strSchema), ("b", strSchema)]) false none "" none [] "" [] false

/-- An unnamed `oneOf` alternative with properties `a`, `c`. -/
def altAC : Schema :=
  .mk "" "" .OBJECT "" none (some [("a", strSchema), ("c", strSchema)]) false none "" none [] "" [] false

/-- `{"title":"Thing","oneOf":[{a,b},{a,c}]}` with unnamed alternatives. -/
def unionDoc : Schema :=
  .mk "Thing" "" .ANY "" none none false none "" none [altAB, altAC] "" [] false

/-- The `a`,`b` alternative, titled `Foo`. -/
def altFoo : Schema :=
  .mk "Foo" "" .OBJECT "" none (some [("a", strSchema), ("b", strSchema)]) false none "" none [] "" [] false

/-- The `a`,`c` alternative, titled `Bar`. -/
def altBar : Schema :=
  .mk "Bar" "" .OBJECT "" none (some [("a", strSchema), ("c", strSchema)]) false none "" none [] "" [] false

/-- `{"title":"Thing","oneOf":[Foo{a,b},Bar{a,c}]}` with distinctly named
alternatives. -/
def namedUnionDoc : Schema :=
  .mk "Thing" "" .ANY "" none none false none "" none [altFoo, altBar] "" [] false

/-! ### Views of the distribution loop used to characterise it -/

/-- All pieces `f a` of the alternatives, concatenated in order. -/
def concatPieces {α : Type} (f : Schema → List α) : List Schema → List α
  | [] => []
  | a :: S => f a ++ concatPieces f S

/-- Fold a sequence of map writes into an association list. -/
def foldUpserts {α : Type} (props : List (String × α)) (m : List (String × α)) :
    List (String × α) :=
  m.foldl (fun pr pv => upsertA pr pv.1 pv.2) props

/-- The common-key writes the distribution performs, in write order. -/
def mergedPieces (S : List Schema) : List (String × Schema) :=
  concatPieces (fun a => (a.properties.getD []).filter (fun pv => allCount S pv.1 > 1)) S

/-- The writes into the group named `nm`, in write order. -/
def groupPieces (S : List Schema) (nm : String) : List (String × Schema) :=
  concatPieces
    (fun a => if a.Name = nm then
      (a.properties.getD []).filter (fun pv => ¬ allCount S pv.1 > 1) else []) S

/-! # Lemmas

## The string order and `sortStrings` -/

theorem charListLe_total : ∀ a b : List Char, charListLe a b = true ∨ charListLe b a = true
  | [], _ => Or.inl rfl
  | _ :: _, [] => Or.inr rfl
  | a :: as, b :: bs => by
    rcases lt_trichotomy a b with h | h | h
    · left
      simp [charListLe, h]
    · subst h
      rcases charListLe_total as bs with ih | ih <;>
        simp [charListLe, ih, lt_irrefl]
    · right
      simp [charListLe, h]

theorem charListLe_antisymm : ∀ a b : List Char,
    charListLe a b = true → charListLe b a = true → a = b
  | [], [], _, _ => rfl
  | [], _ :: _, _, hba => by simp [charListLe] at hba
  | _ :: _, [], hab, _ => by simp [charListLe] at hab
  | a :: as, b :: bs, hab, hba => by
    rcases lt_trichotomy a b with h | h | h
    · rw [charListLe, if_neg (asymm h), if_neg (ne_of_gt h)] at hba
      exact absurd hba (by simp)
    · subst h
      rw [charListLe, if_neg (lt_irrefl a), if_pos rfl] at hab hba
      rw [charListLe_antisymm as bs hab hba]
    · rw [charListLe, if_neg (asymm h), if_neg (ne_of_gt h)] at hab
      exact absurd hab (by simp)

theorem charListLe_trans : ∀ a b c : List Char,
    charListLe a b = true → charListLe b c = true → charListLe a c = true
  | [], _, _, _, _ => rfl
  | _ :: _, [], _, hab, _ => by simp [charListLe] at hab
  | _ :: _, _ :: _, [], _, hbc => by simp [charListLe] at hbc
  | a :: as, b :: bs, c :: cs, hab, hbc => by
    rcases lt_trichotomy a b with h1 | h1 | h1
    · rcases lt_trichotomy b c with h2 | h2 | h2
      · simp [charListLe, h1.trans h2]
      · subst h2
        simp [charListLe, h1]
      · rw [charListLe, if_neg (asymm h2), if_neg (ne_of_gt h2)] at hbc
        exact absurd hbc (by simp)
    · subst h1
      rcases lt_trichotomy a c with h2 | h2 | h2
      · simp [charListLe, h2]
      · subst h2
        rw [charListLe, if_neg (lt_irrefl a), if_pos rfl] at hab hbc ⊢
        exact charListLe_trans as bs cs hab hbc
      · rw [charListLe, if_neg (asymm h2), if_neg (ne_of_gt h2)] at hbc
        exact absurd hbc (by simp)
    · rw [charListLe, if_neg (asymm h1), if_neg (ne_of_gt h1)] at hab
      exact absurd hab (by simp)

instance : IsTotal String strLe :=
  ⟨fun a b => charListLe_total a.data b.data⟩

instance : IsTrans String strLe :=
  ⟨fun a b c hab hbc => charListLe_trans a.data b.data c.data hab hbc⟩

instance : IsAntisymm String strLe :=
  ⟨fun a b hab hba => by
    cases a with
    | mk da =>
      cases b with
      | mk db =>
        rw [charListLe_antisymm da db hab hba]⟩

theorem sortStrings_perm (l : List String) : List.Perm (sortStrings l) l :=
  List.perm_insertionSort strLe l

theorem sortStrings_sorted (l : List String) : (sortStrings l).Sorted strLe :=
  List.sorted_insertionSort strLe l

/-- Two key lists that are permutations of one another sort to the same
list: the sorted processing order depends only on the key set (with
multiplicity), not on the map iteration order. -/
theorem sortStrings_congr {l₁ l₂ : List String} (h : List.Perm l₁ l₂) :
    sortStrings l₁ = sortStrings l₂ :=
  List.eq_of_perm_of_sorted (((sortStrings_perm l₁).trans h).trans (sortStrings_perm l₂).symm)
    (sortStrings_sorted l₁) (sortStrings_sorted l₂)

/-! ## Association-list lemmas -/

theorem lookupA_isSome_iff {α : Type} (l : List (String × α)) (k : String) :
    (lookupA l k).isSome ↔ k ∈ keysA l := by
  induction l with
  | nil => simp [lookupA, keysA]
  | cons kv rest ih =>
    by_cases hk : kv.1 = k
    · simp [lookupA, keysA, List.find?, hk]
    · simp [lookupA, keysA, List.find?, hk, Ne.symm hk, ih]

theorem lookupA_mem {α : Type} {l : List (String × α)} {k : String} {v : α}
    (h : lookupA l k = some v) : (k, v) ∈ l := by
  unfold lookupA at h
  cases hf : l.find? (fun kv => kv.1 = k) with
  | none =>
    rw [hf] at h
    simp at h
  | some kv =>
    rw [hf] at h
    have hm := List.mem_of_find?_eq_some hf
    have hp := List.find?_some hf
    have hk : kv.1 = k := by simpa using hp
    obtain ⟨a, b⟩ := kv
    simp only at hk
    simp at h
    subst hk
    subst h
    exact hm

theorem lookupA_eq_none {α : Type} {l : List (String × α)} {k : String}
    (h : k ∉ keysA l) : lookupA l k = none := by
  cases hl : lookupA l k with
  | none => rfl
  | some v =>
    exact absurd ((lookupA_isSome_iff l k).mp (by simp [hl])) h

/-! ## The emitter: `writeGoCode` -/

theorem writeGoCode_of_mem {n c : String} {st : St} (h : n ∈ st.processed) :
    writeGoCode n c st = st := by
  simp [writeGoCode, h]

theorem writeGoCode_of_not_mem {n c : String} {st : St} (h : n ∉ st.processed) :
    writeGoCode n c st =
      { processed := n :: st.processed, emitted := st.emitted ++ [(n, c)] } := by
  simp [writeGoCode, h]

theorem mem_processed_writeGoCode (n c : String) (st : St) :
    n ∈ (writeGoCode n c st).processed := by
  by_cases h : n ∈ st.processed
  · rw [writeGoCode_of_mem h]
    exact h
  · rw [writeGoCode_of_not_mem h]
    exact List.mem_cons_self n st.processed

theorem processed_subset_writeGoCode (n c : String) (st : St) :
    st.processed ⊆ (writeGoCode n c st).processed := by
  by_cases h : n ∈ st.processed
  · rw [writeGoCode_of_mem h]
    exact fun _ ha => ha
  · rw [writeGoCode_of_not_mem h]
    exact List.subset_cons_self n st.processed

theorem inv_writeGoCode {st : St} (n c : String) (h : Inv st) : Inv (writeGoCode n c st) := by
  obtain ⟨hnd, hsub⟩ := h
  by_cases hm : n ∈ st.processed
  · rw [writeGoCode_of_mem hm]
    exact ⟨hnd, hsub⟩
  · rw [writeGoCode_of_not_mem hm]
    constructor
    · simp only [emittedNames, List.map_append, List.map_cons, List.map_nil] at *
      refine List.Nodup.append hnd (List.nodup_singleton n) ?_
      intro a ha hb
      simp only [List.mem_singleton] at hb
      subst hb
      exact hm (hsub a ha)
    · intro m hmem
      simp only [emittedNames, List.map_append, List.map_cons, List.map_nil,
        List.mem_append, List.mem_singleton] at hmem
      rcases hmem with hmem | hmem
      · exact List.mem_cons_of_mem n (hsub m hmem)
      · subst hmem
        exact List.mem_cons_self m st.processed

/-- The registry invariant is preserved by every successful synthesis
step, across all five mutually recursive loops. -/
theorem inv_run : ∀ fuel : Nat,
    (∀ cfg s st r st', processSchema fuel cfg s st = some (r, st') → Inv st → Inv st') ∧
    (∀ cfg ps ks st r st', processKeyList fuel cfg ps ks st = some (r, st') → Inv st → Inv st') ∧
    (∀ cfg pps ks tn st r st',
      processPatternList fuel cfg pps ks tn st = some (r, st') → Inv st → Inv st') ∧
    (∀ cfg parent alts st r st',
      mergeSchemas fuel cfg parent alts st = some (r, st') → Inv st → Inv st') ∧
    (∀ cfg parent groups ks st r st',
      processGroupList fuel cfg parent groups ks st = some (r, st') → Inv st → Inv st') := by
  intro fuel
  induction fuel with
  | zero =>
    refine ⟨?_, ?_, ?_, ?_, ?_⟩
    · intro cfg s st r st' h
      simp [processSchema] at h
    · intro cfg ps ks st r st' h
      simp [processKeyList] at h
    · intro cfg pps ks tn st r st' h
      simp [processPatternList] at h
    · intro cfg parent alts st r st' h
      simp [mergeSchemas] at h
    · intro cfg parent groups ks st r st' h
      simp [processGroupList] at h
  | succ fuel ih =>
    obtain ⟨ihS, ihK, ihP, ihM, ihG⟩ := ih
    refine ⟨?_, ?_, ?_, ?_, ?_⟩
    · intro cfg s st r st' h hinv
      simp only [processSchema] at h
      split at h
      · -- OBJECT
        split at h
        · -- properties present
          split at h
          · exact absurd h (by simp)
          · next ft st1 heq =>
            simp only [Option.some.injEq, Prod.mk.injEq] at h
            obtain ⟨-, hst⟩ := h
            subst hst
            exact inv_writeGoCode _ _ (ihK _ _ _ _ _ _ heq hinv)
        · -- properties nil
          split at h
          · -- patternProperties present
            exact ihP _ _ _ _ _ _ _ h hinv
          · -- additionalProperties / bare object
            split at h <;>
              · simp only [Option.some.injEq, Prod.mk.injEq] at h
                obtain ⟨-, hst⟩ := h
                subst hst
                exact hinv
      · -- ARRAY
        split at h
        · exact absurd h (by simp)
        · split at h
          · exact absurd h (by simp)
          · next sub st1 heq =>
            repeat' split at h
            all_goals
              simp only [Option.some.injEq, Prod.mk.injEq] at h
              obtain ⟨-, hst⟩ := h
              subst hst
              first
              | exact inv_writeGoCode _ _ (ihS _ _ _ _ _ heq hinv)
              | exact ihS _ _ _ _ _ heq hinv
      · -- ANY
        split at h
        · exact ihM _ _ _ _ _ _ h hinv
        · split at h
          · simp only [Option.some.injEq, Prod.mk.injEq] at h
            obtain ⟨-, hst⟩ := h
            subst hst
            exact hinv
          · split at h <;>
              · simp only [Option.some.injEq, Prod.mk.injEq] at h
                obtain ⟨-, hst⟩ := h
                subst hst
                exact hinv
      all_goals
        simp only [Option.some.injEq, Prod.mk.injEq] at h
        obtain ⟨-, hst⟩ := h
        subst hst
        exact hinv
    · intro cfg ps ks st r st' h hinv
      match ks with
      | [] =>
        simp only [processKeyList, Option.some.injEq, Prod.mk.injEq] at h
        obtain ⟨-, hst⟩ := h
        subst hst
        exact hinv
      | k :: ks =>
        simp only [processKeyList] at h
        split at h
        · exact absurd h (by simp)
        · next sub st1 heq =>
          split at h
          · exact absurd h (by simp)
          · next rest st2 heq2 =>
            simp only [Option.some.injEq, Prod.mk.injEq] at h
            obtain ⟨-, hst⟩ := h
            subst hst
            exact ihK _ _ _ _ _ _ heq2 (ihS _ _ _ _ _ heq hinv)
    · intro cfg pps ks tn st r st' h hinv
      match ks with
      | [] =>
        simp only [processPatternList, Option.some.injEq, Prod.mk.injEq] at h
        obtain ⟨-, hst⟩ := h
        subst hst
        exact hinv
      | k :: ks =>
        simp only [processPatternList] at h
        split at h
        · exact absurd h (by simp)
        · next sub st1 heq =>
          split at h
          · exact ihP _ _ _ _ _ _ _ h (inv_writeGoCode _ _ (ihS _ _ _ _ _ heq hinv))
          · exact ihP _ _ _ _ _ _ _ h (ihS _ _ _ _ _ heq hinv)
    · intro cfg parent alts st r st' h hinv
      simp only [mergeSchemas] at h
      split at h
      · exact absurd h (by simp)
      · exact ihS _ _ _ _ _ h hinv
      · split at h
        · exact absurd h (by simp)
        · next ct st1 heq =>
          split at h
          · exact absurd h (by simp)
          · next gt st2 heq2 =>
            simp only [Option.some.injEq, Prod.mk.injEq] at h
            obtain ⟨-, hst⟩ := h
            subst hst
            exact inv_writeGoCode _ _ (ihG _ _ _ _ _ _ _ heq2 (ihK _ _ _ _ _ _ heq hinv))
    · intro cfg parent groups ks st r st' h hinv
      match ks with
      | [] =>
        simp only [processGroupList, Option.some.injEq, Prod.mk.injEq] at h
        obtain ⟨-, hst⟩ := h
        subst hst
        exact hinv
      | k :: ks =>
        simp only [processGroupList] at h
        split at h
        · exact absurd h (by simp)
        · next sub st1 heq =>
          split at h
          · exact absurd h (by simp)
          · next rest st2 heq2 =>
            simp only [Option.some.injEq, Prod.mk.injEq] at h
            obtain ⟨-, hst⟩ := h
            subst hst
            exact ihG _ _ _ _ _ _ _ heq2 (ihS _ _ _ _ _ heq hinv)

/-! ## State independence of the synthesized type expression

The string a synthesis call returns (and whether it succeeds) depends only
on the schema and the configuration, never on the registry state the call
starts from. -/

theorem mapFst_rel {o₁ o₂ : Option (String × St)}
    (h : o₁.map Prod.fst = o₂.map Prod.fst) :
    (o₁ = none ∧ o₂ = none) ∨ ∃ r s₁ s₂, o₁ = some (r, s₁) ∧ o₂ = some (r, s₂) := by
  cases o₁ with
  | none =>
    cases o₂ with
    | none => exact Or.inl ⟨rfl, rfl⟩
    | some q => simp at h
  | some p =>
    cases o₂ with
    | none => simp at h
    | some q =>
      simp only [Option.map_some', Option.some.injEq] at h
      refine Or.inr ⟨p.1, p.2, q.2, by rw [Prod.mk.eta], ?_⟩
      rw [h, Prod.mk.eta]

theorem fst_indep : ∀ fuel : Nat,
    (∀ cfg s st₁ st₂,
      (processSchema fuel cfg s st₁).map Prod.fst = (processSchema fuel cfg s st₂).map Prod.fst) ∧
    (∀ cfg ps ks st₁ st₂,
      (processKeyList fuel cfg ps ks st₁).map Prod.fst =
        (processKeyList fuel cfg ps ks st₂).map Prod.fst) ∧
    (∀ cfg pps ks tn st₁ st₂,
      (processPatternList fuel cfg pps ks tn st₁).map Prod.fst =
        (processPatternList fuel cfg pps ks tn st₂).map Prod.fst) ∧
    (∀ cfg parent alts st₁ st₂,
      (mergeSchemas fuel cfg parent alts st₁).map Prod.fst =
        (mergeSchemas fuel cfg parent alts st₂).map Prod.fst) ∧
    (∀ cfg parent groups ks st₁ st₂,
      (processGroupList fuel cfg parent groups ks st₁).map Prod.fst =
        (processGroupList fuel cfg parent groups ks st₂).map Prod.fst) := by
  intro fuel
  induction fuel with
  | zero =>
    exact ⟨fun _ _ _ _ => rfl, fun _ _ _ _ _ => rfl, fun _ _ _ _ _ _ => rfl,
      fun _ _ _ _ _ => rfl, fun _ _ _ _ _ _ => rfl⟩
  | succ fuel ih =>
    obtain ⟨ihS, ihK, ihP, ihM, ihG⟩ := ih
    refine ⟨?_, ?_, ?_, ?_, ?_⟩
    · intro cfg s st₁ st₂
      simp only [processSchema]
      cases hty : s.type <;> simp only []
      case OBJECT =>
        cases hps : s.properties with
        | some ps =>
          simp only []
          rcases mapFst_rel (ihK cfg ps (sortStrings (keysA ps)) st₁ st₂) with
            ⟨h₁, h₂⟩ | ⟨r, s₁, s₂, h₁, h₂⟩ <;> simp [h₁, h₂]
        | none =>
          simp only []
          cases hpp : s.patternProperties with
          | some pps => simp only []; exact ihP cfg pps _ _ st₁ st₂
          | none => by_cases hap : s.additionalProperties = true <;> simp [hap]
      case ARRAY =>
        cases hit : s.items with
        | none => simp
        | some it =>
          simp only []
          rcases mapFst_rel (ihS cfg it st₁ st₂) with
            ⟨h₁, h₂⟩ | ⟨r, s₁, s₂, h₁, h₂⟩ <;> simp only [h₁, h₂]
          repeat' split
          all_goals simp
      case ANY =>
        by_cases ho : s.oneOf.length > 0
        · simp only [ho, if_pos]
          exact ihM cfg s s.oneOf st₁ st₂
        · by_cases hc : s.const ≠ "" <;> by_cases he : s.enum.length > 0 <;>
            simp [ho, hc, he]
      case BOOLEAN => rfl
      case INTEGER => rfl
      case NUMBER => rfl
      case NULL => rfl
      case STRING => rfl
    · intro cfg ps ks st₁ st₂
      match ks with
      | [] => rfl
      | k :: ks =>
        simp only [processKeyList]
        rcases mapFst_rel (ihS cfg ((lookupA ps k).getD Schema.empty) st₁ st₂) with
          ⟨h₁, h₂⟩ | ⟨r, s₁, s₂, h₁, h₂⟩ <;> simp only [h₁, h₂]
        rcases mapFst_rel (ihK cfg ps ks s₁ s₂) with
          ⟨g₁, g₂⟩ | ⟨r2, t₁, t₂, g₁, g₂⟩ <;> simp [g₁, g₂]
    · intro cfg pps ks tn st₁ st₂
      match ks with
      | [] => rfl
      | k :: ks =>
        simp only [processPatternList]
        rcases mapFst_rel (ihS cfg ((lookupA pps k).getD Schema.empty) st₁ st₂) with
          ⟨h₁, h₂⟩ | ⟨r, s₁, s₂, h₁, h₂⟩ <;> simp only [h₁, h₂]
        split
        · exact ihP cfg pps ks _ _ _
        · exact ihP cfg pps ks _ _ _
    · intro cfg parent alts st₁ st₂
      match alts with
      | [] => rfl
      | [one] => exact ihS cfg one st₁ st₂
      | a :: b :: rest =>
        simp only [mergeSchemas]
        rcases mapFst_rel (ihK cfg (distributeProps (a :: b :: rest)).1
            (sortStrings (keysA (distributeProps (a :: b :: rest)).1)) st₁ st₂) with
          ⟨h₁, h₂⟩ | ⟨r, s₁, s₂, h₁, h₂⟩ <;> simp only [h₁, h₂]
        rcases mapFst_rel (ihG cfg parent (distributeProps (a :: b :: rest)).2
            (sortStrings (keysA ((distributeProps (a :: b :: rest)).2.filter
              (fun g => g.2.2.length > 0)))) s₁ s₂) with
          ⟨g₁, g₂⟩ | ⟨r2, t₁, t₂, g₁, g₂⟩ <;> simp [g₁, g₂]
    · intro cfg parent groups ks st₁ st₂
      match ks with
      | [] => rfl
      | k :: ks =>
        simp only [processGroupList]
        rcases mapFst_rel (ihS cfg (groupSchemaOf parent k
            ((lookupA groups k).getD (.ANY, [])).1
            ((lookupA groups k).getD (.ANY, [])).2) st₁ st₂) with
          ⟨h₁, h₂⟩ | ⟨r, s₁, s₂, h₁, h₂⟩ <;> simp only [h₁, h₂]
        rcases mapFst_rel (ihG cfg parent groups ks s₁ s₂) with
          ⟨g₁, g₂⟩ | ⟨r2, t₁, t₂, g₁, g₂⟩ <;> simp [g₁, g₂]

/-! ## Fuel monotonicity: a successful run also succeeds, with the same
result, when given more fuel -/

theorem fuel_mono : ∀ fuel : Nat,
    (∀ cfg s st r, processSchema fuel cfg s st = some r →
      processSchema (fuel + 1) cfg s st = some r) ∧
    (∀ cfg ps ks st r, processKeyList fuel cfg ps ks st = some r →
      processKeyList (fuel + 1) cfg ps ks st = some r) ∧
    (∀ cfg pps ks tn st r, processPatternList fuel cfg pps ks tn st = some r →
      processPatternList (fuel + 1) cfg pps ks tn st = some r) ∧
    (∀ cfg parent alts st r, mergeSchemas fuel cfg parent alts st = some r →
      mergeSchemas (fuel + 1) cfg parent alts st = some r) ∧
    (∀ cfg parent groups ks st r, processGroupList fuel cfg parent groups ks st = some r →
      processGroupList (fuel + 1) cfg parent groups ks st = some r) := by
  intro fuel
  induction fuel with
  | zero =>
    refine ⟨?_, ?_, ?_, ?_, ?_⟩
    · intro cfg s st r h
      simp [processSchema] at h
    · intro cfg ps ks st r h
      simp [processKeyList] at h
    · intro cfg pps ks tn st r h
      simp [processPatternList] at h
    · intro cfg parent alts st r h
      simp [mergeSchemas] at h
    · intro cfg parent groups ks st r h
      simp [processGroupList] at h
  | succ fuel ih =>
    obtain ⟨ihS, ihK, ihP, ihM, ihG⟩ := ih
    refine ⟨?_, ?_, ?_, ?_, ?_⟩
    · intro cfg s st r h
      rw [processSchema]
      simp only [processSchema] at h
      split at h
      · -- OBJECT
        split at h
        · -- properties present
          split at h
          · exact absurd h (by simp)
          · next ft st1 heq =>
            rw [ihK _ _ _ _ _ heq]
            exact h
        · -- properties nil
          split at h
          · exact ihP _ _ _ _ _ _ h
          · exact h
      · -- ARRAY
        split at h
        · exact absurd h (by simp)
        · split at h
          · exact absurd h (by simp)
          · next sub st1 heq =>
            rw [ihS _ _ _ _ heq]
            exact h
      · -- ANY
        by_cases hone : s.oneOf.length > 0
        · rw [if_pos hone] at h ⊢
          exact ihM _ _ _ _ _ h
        · rw [if_neg hone] at h ⊢
          exact h
      all_goals exact h
    · intro cfg ps ks st r h
      match ks with
      | [] =>
        rw [processKeyList]
        simp only [processKeyList] at h
        exact h
      | k :: ks =>
        rw [processKeyList]
        simp only [processKeyList] at h
        split at h
        · exact absurd h (by simp)
        · next sub st1 heq =>
          rw [ihS _ _ _ _ heq]
          simp only []
          split at h
          · exact absurd h (by simp)
          · next rest st2 heq2 =>
            rw [ihK _ _ _ _ _ heq2]
            exact h
    · intro cfg pps ks tn st r h
      match ks with
      | [] =>
        rw [processPatternList]
        simp only [processPatternList] at h
        exact h
      | k :: ks =>
        rw [processPatternList]
        simp only [processPatternList] at h
        split at h
        · exact absurd h (by simp)
        · next sub st1 heq =>
          rw [ihS _ _ _ _ heq]
          simp only []
          split at h <;> rename_i hcond
          · rw [if_pos hcond]
            exact ihP _ _ _ _ _ _ h
          · rw [if_neg hcond]
            exact ihP _ _ _ _ _ _ h
    · intro cfg parent alts st r h
      match alts with
      | [] =>
        simp only [mergeSchemas] at h
        exact absurd h (by simp)
      | [one] =>
        simp only [mergeSchemas] at h ⊢
        exact ihS _ _ _ _ h
      | a :: b :: rest =>
        simp only [mergeSchemas] at h ⊢
        split at h
        · exact absurd h (by simp)
        · next ct st1 heq =>
          rw [ihK _ _ _ _ _ heq]
          simp only []
          split at h
          · exact absurd h (by simp)
          · next gt st2 heq2 =>
            rw [ihG _ _ _ _ _ _ heq2]
            exact h
    · intro cfg parent groups ks st r h
      match ks with
      | [] =>
        rw [processGroupList]
        simp only [processGroupList] at h
        exact h
      | k :: ks =>
        rw [processGroupList]
        simp only [processGroupList] at h
        split at h
        · exact absurd h (by simp)
        · next sub st1 heq =>
          rw [ihS _ _ _ _ heq]
          simp only []
          split at h
          · exact absurd h (by simp)
          · next rest st2 heq2 =>
            rw [ihG _ _ _ _ _ _ heq2]
            exact h

theorem typeNameAt_mono {fuel : Nat} {cfg : Cfg} {s : Schema} {x : String}
    (h : typeNameAt fuel cfg s = some x) : typeNameAt (fuel + 1) cfg s = some x := by
  unfold typeNameAt at h ⊢
  cases hp : processSchema fuel cfg s st0 with
  | none =>
    rw [hp] at h
    simp at h
  | some r =>
    rw [hp] at h
    rw [(fuel_mono fuel).1 _ _ _ _ hp]
    exact h

/-! ## The text produced by the field loop -/

/-- The accumulated field text of a successful `processKeyList` run is one
`fieldLine` per key, in the given key order, each typed by the (state
independent) recursive synthesis of that key's value schema; moreover each
key's synthesis succeeds. -/
theorem processKeyList_text (cfg : Cfg) (ps : List (String × Schema)) :
    ∀ ks fuel st ft st', processKeyList fuel cfg ps ks st = some (ft, st') →
      ft = strJoin (ks.map (fun k =>
        fieldLine cfg k ((typeNameAt fuel cfg ((lookupA ps k).getD Schema.empty)).getD ""))) ∧
      ∀ k ∈ ks, (typeNameAt fuel cfg ((lookupA ps k).getD Schema.empty)).isSome := by
  intro ks
  induction ks with
  | nil =>
    intro fuel st ft st' h
    cases fuel with
    | zero => simp [processKeyList] at h
    | succ fuel =>
      simp only [processKeyList, Option.some.injEq, Prod.mk.injEq] at h
      obtain ⟨hft, -⟩ := h
      exact ⟨by simp [← hft, strJoin], by simp⟩
  | cons k ks ih =>
    intro fuel st ft st' h
    cases fuel with
    | zero => simp [processKeyList] at h
    | succ fuel =>
      simp only [processKeyList] at h
      split at h
      · exact absurd h (by simp)
      · next sub st1 heq =>
        split at h
        · exact absurd h (by simp)
        · next rest st2 heq2 =>
          simp only [Option.some.injEq, Prod.mk.injEq] at h
          obtain ⟨hft, -⟩ := h
          have hhead : typeNameAt fuel cfg ((lookupA ps k).getD Schema.empty) = some sub := by
            unfold typeNameAt
            rw [(fst_indep fuel).1 cfg ((lookupA ps k).getD Schema.empty) st0 st, heq]
            rfl
          obtain ⟨hrest, hsome⟩ := ih fuel st1 rest st2 heq2
          have hlift : ∀ k2 ∈ ks,
              (typeNameAt (fuel + 1) cfg ((lookupA ps k2).getD Schema.empty)).getD "" =
                (typeNameAt fuel cfg ((lookupA ps k2).getD Schema.empty)).getD "" := by
            intro k2 hk2
            cases ht : typeNameAt fuel cfg ((lookupA ps k2).getD Schema.empty) with
            | none =>
              have := hsome k2 hk2
              rw [ht] at this
              simp at this
            | some x =>
              rw [typeNameAt_mono ht]
          constructor
          · rw [← hft]
            simp only [List.map_cons, strJoin]
            rw [typeNameAt_mono hhead]
            simp only [Option.getD_some]
            rw [List.map_congr_left (fun a ha =>
              congrArg (fieldLine cfg a) (hlift a ha))]
            rw [hrest]
          · intro k2 hk2
            rcases List.mem_cons.mp hk2 with hk2 | hk2
            · subst hk2
              rw [typeNameAt_mono hhead]
              rfl
            · cases ht : typeNameAt fuel cfg ((lookupA ps k2).getD Schema.empty) with
              | none =>
                have := hsome k2 hk2
                rw [ht] at this
                simp at this
              | some x =>
                rw [typeNameAt_mono ht]
                rfl

/-! # The claims -/

/-- **C1.** For every schema node of type object whose properties map `P`
is non-empty, synthesis emits exactly one named struct type containing
exactly one field per key of `P`, the fields appear in lexicographic order
of the keys, each field's type equals the result of recursively
synthesizing that key's value schema, and the value returned for the node
is a pointer to the emitted named type.  (The emitted text is
`structTextOf`: one `fieldLine` per key of `P`, keys sorted
lexicographically, each field typed by the recursive synthesis of its
value schema; the node's own contribution to the writer is exactly the
single `writeGoCode` of that text under the derived name.) -/
theorem claim1_object_struct {fuel : Nat} {cfg : Cfg} {s : Schema}
    {ps : List (String × Schema)} {st st' : St} {res : String}
    (hty : s.type = .OBJECT) (hps : s.properties = some ps) (_hne : ps ≠ [])
    (h : processSchema (fuel + 1) cfg s st = some (res, st')) :
    res = "*" ++ toCamel cfg s.Name ∧
    List.Perm (sortStrings (keysA ps)) (keysA ps) ∧
    (sortStrings (keysA ps)).Sorted strLe ∧
    ∃ st1, st' =
      writeGoCode (toCamel cfg s.Name) (structTextOf fuel cfg ps (toCamel cfg s.Name)) st1 := by
  simp only [processSchema, hty, hps] at h
  split at h
  · exact absurd h (by simp)
  · next ft st1 heq =>
    obtain ⟨htext, -⟩ := processKeyList_text cfg ps (sortStrings (keysA ps)) fuel st ft st1 heq
    simp only [Option.some.injEq, Prod.mk.injEq] at h
    obtain ⟨hres, hst⟩ := h
    refine ⟨hres.symm, sortStrings_perm (keysA ps), sortStrings_sorted (keysA ps), st1, ?_⟩
    rw [← hst, htext]
    rfl

/-- Witness for C1 at the `Pet` schema. -/
theorem claim1_object_struct_witness :
    (petSchema.type = SchemaType.OBJECT ∧ petSchema.properties = some petProps ∧
      petProps ≠ [] ∧
      processSchema 5 defaultCfg petSchema st0 =
        some ("*Pet", ⟨["Pet"], [("Pet", structTextOf 4 defaultCfg petProps "Pet")]⟩)) ∧
    ("*Pet" = "*" ++ toCamel defaultCfg petSchema.Name ∧
      List.Perm (sortStrings (keysA petProps)) (keysA petProps) ∧
      (sortStrings (keysA petProps)).Sorted strLe ∧
      ∃ st1, (⟨["Pet"], [("Pet", structTextOf 4 defaultCfg petProps "Pet")]⟩ : St) =
        writeGoCode (toCamel defaultCfg petSchema.Name)
          (structTextOf 4 defaultCfg petProps "Pet") st1) := by
  have h : processSchema 5 defaultCfg petSchema st0 =
      some ("*Pet", ⟨["Pet"], [("Pet", structTextOf 4 defaultCfg petProps "Pet")]⟩) := by
    decide
  exact ⟨⟨rfl, rfl, by simp [petProps], h⟩,
    claim1_object_struct rfl rfl (by simp [petProps]) h⟩

/-- **C5.** Emission is idempotent per name within one run: the first call
for a name hands the text to the writer, every later call with the same
name is a no-op, and a whole run starting from the empty registry emits at
most one definition per distinct name. -/
theorem claim5_emit_idempotent :
    (∀ n c c2 st, writeGoCode n c2 (writeGoCode n c st) = writeGoCode n c st) ∧
    (∀ n c st, n ∉ st.processed →
      writeGoCode n c st = { processed := n :: st.processed, emitted := st.emitted ++ [(n, c)] }) ∧
    (∀ n c st, n ∈ st.processed → writeGoCode n c st = st) ∧
    (∀ fuel cfg s res st', processSchema fuel cfg s st0 = some (res, st') →
      (emittedNames st').Nodup) := by
  refine ⟨?_, ?_, ?_, ?_⟩
  · intro n c c2 st
    by_cases hm : n ∈ st.processed
    · rw [writeGoCode_of_mem hm, writeGoCode_of_mem hm]
    · rw [writeGoCode_of_not_mem hm]
      exact writeGoCode_of_mem (List.mem_cons_self n st.processed)
  · exact fun n c st h => writeGoCode_of_not_mem h
  · exact fun n c st h => writeGoCode_of_mem h
  · intro fuel cfg s res st' h
    exact ((inv_run fuel).1 _ _ _ _ _ h
      ⟨by simp [emittedNames, st0], by simp [emittedNames, st0]⟩).1

/-- Witness for C5: a concrete double emission and a concrete run. -/
theorem claim5_emit_idempotent_witness :
    ("Pet" ∉ st0.processed ∧
      writeGoCode "Pet" "body" st0 = { processed := ["Pet"], emitted := [("Pet", "body")] }) ∧
    ("Pet" ∈ (writeGoCode "Pet" "body" st0).processed ∧
      writeGoCode "Pet" "other" (writeGoCode "Pet" "body" st0) = writeGoCode "Pet" "body" st0) ∧
    (processSchema 5 defaultCfg petSchema st0 =
        some ("*Pet", ⟨["Pet"], [("Pet", structTextOf 4 defaultCfg petProps "Pet")]⟩) ∧
      (emittedNames ⟨["Pet"], [("Pet", structTextOf 4 defaultCfg petProps "Pet")]⟩).Nodup) := by
  have h : processSchema 5 defaultCfg petSchema st0 =
      some ("*Pet", ⟨["Pet"], [("Pet", structTextOf 4 defaultCfg petProps "Pet")]⟩) := by
    decide
  exact ⟨⟨by decide, claim5_emit_idempotent.2.1 "Pet" "body" st0 (by decide)⟩,
    ⟨by decide, claim5_emit_idempotent.1 "Pet" "body" "other" st0⟩,
    ⟨h, claim5_emit_idempotent.2.2.2 5 defaultCfg petSchema _ _ h⟩⟩

/-- **C6, counterexample.** With no title and id
`https://example.com/schemas/person.json` the derived raw name is
`personjson` (every non-letter/non-digit of the last `/`-segment
`person.json` is stripped), not `person` as the claim states. -/
theorem claim6_counterexample :
    Schema.Name personSchema = "personjson" ∧ Schema.Name personSchema ≠ "person" := by
  constructor
  · decide
  · decide

/-- **C6, amended.** Name derivation returns the title when non-empty,
else the **last** path segment of the id (which may be empty — not the
last non-empty one) with all non-letter/non-digit characters stripped,
else the description; the example id derives `personjson`. -/
theorem claim6_name_amended :
    (∀ s : Schema, s.title ≠ "" → s.Name = s.title) ∧
    (∀ s : Schema, s.title = "" → Schema.stripNonAlnum ((splitSlash s.id).getLastD "") ≠ "" →
      s.Name = Schema.stripNonAlnum ((splitSlash s.id).getLastD "")) ∧
    (∀ s : Schema, s.title = "" → Schema.stripNonAlnum ((splitSlash s.id).getLastD "") = "" →
      s.Name = s.description) ∧
    Schema.Name personSchema = "personjson" := by
  refine ⟨?_, ?_, ?_, by decide⟩
  · intro s h
    simp [Schema.Name, h]
  · intro s h1 h2
    rw [List.getLastD_eq_getLast?] at h2
    simp [Schema.Name, h1, h2]
  · intro s h1 h2
    rw [List.getLastD_eq_getLast?] at h2
    simp [Schema.Name, h1, h2]

/-- Witness for the amended C6, applying each clause at a concrete
schema. -/
theorem claim6_name_amended_witness :
    (petSchema.title ≠ "" ∧ petSchema.Name = petSchema.title) ∧
    (personSchema.title = "" ∧
      Schema.stripNonAlnum ((splitSlash personSchema.id).getLastD "") ≠ "" ∧
      personSchema.Name = Schema.stripNonAlnum ((splitSlash personSchema.id).getLastD "")) ∧
    (strSchema.title = "" ∧ Schema.stripNonAlnum ((splitSlash strSchema.id).getLastD "") = "" ∧
      strSchema.Name = strSchema.description) :=
  ⟨⟨by decide, claim6_name_amended.1 petSchema (by decide)⟩,
    ⟨rfl, by decide, claim6_name_amended.2.1 personSchema rfl (by decide)⟩,
    ⟨rfl, by decide, claim6_name_amended.2.2.1 strSchema rfl (by decide)⟩⟩

/-- **C8, counterexample.** An object schema with no properties, no
pattern properties and `additionalProperties` false does **not** synthesize
to the open map `map[string]any`: none of the switch cases matches, so the
result is just the camel-cased derived name (here `Foo`), with nothing
emitted. -/
theorem claim8_counterexample :
    processSchema 5 defaultCfg bareFooSchema st0 = some ("Foo", st0) ∧
    ¬ processSchema 5 defaultCfg bareFooSchema st0 = some ("map[string]any", st0) := by
  constructor
  · decide
  · decide

/-- **C8, amended.** For an object with no properties, no pattern
properties and `additionalProperties` false, synthesis returns the
camel-cased derived name unchanged (for an unnamed node the empty string),
emits nothing and leaves the state untouched; only `additionalProperties`
true yields `map[string]any`. -/
theorem claim8_object_default_amended {cfg : Cfg} {s : Schema}
    (hty : s.type = .OBJECT) (hps : s.properties = none)
    (hpp : s.patternProperties = none) (hap : s.additionalProperties = false) :
    ∀ fuel st, processSchema (fuel + 1) cfg s st = some (toCamel cfg s.Name, st) := by
  intro fuel st
  simp [processSchema, hty, hps, hpp, hap]

/-- Witness for the amended C8 at the bare `Foo` object. -/
theorem claim8_object_default_amended_witness :
    (bareFooSchema.type = SchemaType.OBJECT ∧ bareFooSchema.properties = none ∧
      bareFooSchema.patternProperties = none ∧ bareFooSchema.additionalProperties = false) ∧
    processSchema 5 defaultCfg bareFooSchema st0 =
      some (toCamel defaultCfg bareFooSchema.Name, st0) :=
  ⟨⟨rfl, rfl, rfl, rfl⟩,
    @claim8_object_default_amended defaultCfg bareFooSchema rfl rfl rfl rfl 4 st0⟩

/-- **C7, counterexample.** On `httpServerId` (built-in table: suffix
`Id` and prefix `Http` both match) the code substitutes the suffix and
returns immediately, yielding `HttpServerID`; the claim's algorithm —
suffix substitution **and afterwards** prefix substitutions — would yield
`HTTPServerID`. -/
theorem claim7_counterexample :
    toCamel defaultCfg "httpServerId" = "HttpServerID" ∧
    toIdentifierSpec defaultCfg "httpServerId" = "HTTPServerID" ∧
    toCamel defaultCfg "httpServerId" ≠ toIdentifierSpec defaultCfg "httpServerId" := by
  refine ⟨by decide, by decide, by decide⟩

/-- **C7, amended.** Identifier conversion camel-cases the word, then
returns on the first suffix match in the replacement table (prefix
substitutions are applied **only when no suffix matched**, cumulatively);
the built-in abbreviation table is merged into the configured table by the
constructor (built-ins overwriting user entries on key conflict), and
`userId` yields `UserID` both under the defaults and under a user table
`{"Id": "ID"}` merged with them. -/
theorem claim7_tocamel_amended :
    (∀ cfg str kv, cfg.replacements.find? (fun e => hasSuffixStr (toCamelGo str) e.1) = some kv →
      toCamel cfg str = trimSuffixStr (toCamelGo str) kv.1 ++ kv.2) ∧
    (∀ cfg str, cfg.replacements.find? (fun e => hasSuffixStr (toCamelGo str) e.1) = none →
      toCamel cfg str = cfg.replacements.foldl
        (fun w kv => if hasPrefixStr w kv.1 then kv.2 ++ trimPrefixStr w kv.1 else w)
        (toCamelGo str)) ∧
    toCamel defaultCfg "userId" = "UserID" ∧
    (∀ u, NewSchemaProcessor [SPOption.replacements (some u)] =
      some { initPState with replacements := some (mergeDefaults u) }) ∧
    toCamel ⟨mergeDefaults [("Id", "ID")]⟩ "userId" = "UserID" := by
  refine ⟨?_, ?_, by decide, ?_, by decide⟩
  · intro cfg str kv h
    simp only [toCamel]
    rw [h]
  · intro cfg str h
    simp only [toCamel]
    rw [h]
  · intro u
    rfl

/-- Witness for the amended C7: a concrete suffix hit and a concrete
suffix miss. -/
theorem claim7_tocamel_amended_witness :
    (defaultCfg.replacements.find? (fun e => hasSuffixStr (toCamelGo "userId") e.1) =
        some ("Id", "ID") ∧
      toCamel defaultCfg "userId" = trimSuffixStr (toCamelGo "userId") "Id" ++ "ID") ∧
    (cfgA.replacements.find? (fun e => hasSuffixStr (toCamelGo "name") e.1) = none ∧
      toCamel cfgA "name" = cfgA.replacements.foldl
        (fun w kv => if hasPrefixStr w kv.1 then kv.2 ++ trimPrefixStr w kv.1 else w)
        (toCamelGo "name")) :=
  ⟨⟨by decide, claim7_tocamel_amended.1 defaultCfg "userId" ("Id", "ID") (by decide)⟩,
    ⟨by decide, claim7_tocamel_amended.2.1 cfgA "name" (by decide)⟩⟩

/-- **C10, counterexample.** A call in which some option supplied a
non-nil replacements map can still panic: a later `Replacements(nil)`
resets the field, and merging the defaults into the nil map panics. -/
theorem claim10_counterexample :
    SPOption.replacements (some [("A", "B")]) ∈
      [SPOption.replacements (some [("A", "B")]), SPOption.replacements none] ∧
    NewSchemaProcessor
      [SPOption.replacements (some [("A", "B")]), SPOption.replacements none] = none := by
  refine ⟨by decide, by decide⟩

/-- **C10, amended.** The constructor panics exactly when applying the
options leaves the replacements field a nil map: in particular it panics
whenever no `Replacements` option occurs at all, and it returns normally
(with the defaults merged in) whenever the options leave a non-nil map. -/
theorem claim10_constructor_amended :
    (∀ opts, NewSchemaProcessor opts = none ↔
      (opts.foldl (fun st o => applyOpt o st) initPState).replacements = none) ∧
    (∀ opts, (∀ o ∈ opts, ∀ m, o ≠ SPOption.replacements m) →
      NewSchemaProcessor opts = none) ∧
    (∀ opts u, (opts.foldl (fun st o => applyOpt o st) initPState).replacements = some u →
      NewSchemaProcessor opts =
        some { opts.foldl (fun st o => applyOpt o st) initPState with
          replacements := some (mergeDefaults u) }) := by
  have hkeep : ∀ (opts : List SPOption) (st : PState),
      (∀ o ∈ opts, ∀ m, o ≠ SPOption.replacements m) → st.replacements = none →
      (opts.foldl (fun st o => applyOpt o st) st).replacements = none := by
    intro opts
    induction opts with
    | nil => intro st _ h0; exact h0
    | cons o opts ih =>
      intro st h h0
      rw [List.foldl_cons]
      refine ih (applyOpt o st) (fun o2 ho2 m => h o2 (List.mem_cons_of_mem o ho2) m) ?_
      cases o with
      | replacements m => exact absurd rfl (h _ (List.mem_cons_self _ _) m)
      | outputDir d => exact h0
      | packageName n => exact h0
      | overwrite b => exact h0
      | stdoutOpt b => exact h0
      | formatOpt b => exact h0
      | comment b => exact h0
  refine ⟨?_, ?_, ?_⟩
  · intro opts
    simp only [NewSchemaProcessor]
    cases hrep : (opts.foldl (fun st o => applyOpt o st) initPState).replacements with
    | none => simp [hrep]
    | some t => simp [hrep]
  · intro opts h
    simp only [NewSchemaProcessor]
    rw [hkeep opts initPState h rfl]
  · intro opts u h
    simp only [NewSchemaProcessor]
    rw [h]

/-- Witness for the amended C10 at concrete option lists. -/
theorem claim10_constructor_amended_witness :
    (NewSchemaProcessor [SPOption.outputDir "x"] = none ↔
      (([SPOption.outputDir "x"].foldl (fun st o => applyOpt o st) initPState)).replacements =
        none) ∧
    ((∀ o ∈ [SPOption.outputDir "x"], ∀ m, o ≠ SPOption.replacements m) ∧
      NewSchemaProcessor [SPOption.outputDir "x"] = none) ∧
    ((([SPOption.replacements (some [("A", "B")])].foldl
        (fun st o => applyOpt o st) initPState)).replacements = some [("A", "B")] ∧
      NewSchemaProcessor [SPOption.replacements (some [("A", "B")])] =
        some { [SPOption.replacements (some [("A", "B")])].foldl
            (fun st o => applyOpt o st) initPState with
          replacements := some (mergeDefaults [("A", "B")]) }) := by
  refine ⟨claim10_constructor_amended.1 [SPOption.outputDir "x"], ?_, ?_⟩
  · have hno : ∀ o ∈ [SPOption.outputDir "x"], ∀ m, o ≠ SPOption.replacements m := by
      intro o ho m
      simp only [List.mem_singleton] at ho
      subst ho
      exact fun hcon => SPOption.noConfusion hcon
    exact ⟨hno, claim10_constructor_amended.2.1 [SPOption.outputDir "x"] hno⟩
  · exact ⟨by decide,
      claim10_constructor_amended.2.2 [SPOption.replacements (some [("A", "B")])]
        [("A", "B")] (by decide)⟩

/-- **C3, counterexample.** With the claim's own example
`oneOf = [{properties:{a,b}}, {properties:{a,c}}]` (alternatives unnamed,
as written), the uncommon groups are keyed by the alternatives' derived
names, which are both `""`: the two alternatives collapse into **one**
group carrying both `b` and `c`, and the merged emission contains one
inline group type, not two. -/
theorem claim3_counterexample :
    (distributeProps [altAB, altAC]).2.map (fun g => (g.1, keysA g.2.2)) = [("", ["b", "c"])] ∧
    ((distributeProps [altAB, altAC]).2.filter (fun g => g.2.2.length > 0)).length = 1 ∧
    (processSchema 8 defaultCfg unionDoc st0).map (fun r => emittedNames r.2) =
      some ["", "Thing"] ∧
    ¬ ((distributeProps [altAB, altAC]).2.filter (fun g => g.2.2.length > 0)).length = 2 := by
  refine ⟨by decide, by decide, by decide, by decide⟩

/-- **C4, counterexample.** After the resolver pass on a document whose
property `p` is `{"$ref": "#/definitions/Foo"}`: the pass never traverses
`definitions`, so `definitions.Foo` keeps an unset root, and the `p` node
— overwritten in place by the (never-visited) definition through the typed
walk — also ends with an unset root, although it is reachable through
`properties`.  This refutes "every reachable node has its root set". -/
theorem claim4_counterexample :
    (setRoot 9 refDocSchema refDocSchema).properties =
      some [("p", Schema.mk "p" "" .STRING "" none none false none "" none [] "" [] false)] ∧
    Child (setRoot 9 refDocSchema refDocSchema)
      (Schema.mk "p" "" .STRING "" none none false none "" none [] "" [] false) ∧
    (Schema.mk "p" "" .STRING "" none none false none "" none [] "" [] false).rootSet = false ∧
    ((setRoot 9 refDocSchema refDocSchema).definitions.getD []).map
      (fun kv => (kv.1, kv.2.rootSet)) = [("Foo", false)] := by
  have hp : (setRoot 9 refDocSchema refDocSchema).properties =
      some [("p", Schema.mk "p" "" .STRING "" none none false none "" none [] "" [] false)] :=
    rfl
  refine ⟨hp, Child.prop hp (List.mem_singleton.mpr rfl), rfl, rfl⟩

/-- **C9, counterexample.** The same document and the same replacement
table presented in two iteration orders (a permutation — Go map iteration
order is unspecified) emit different type names: `httpsServer` becomes
`HTTPsServer` under one order and `HTTPSServer` under the other, because
the key `Http` is a prefix of the key `Https`.  Synthesis output is
therefore not deterministic for every configuration. -/
theorem claim9_counterexample :
    List.Perm cfgA.replacements cfgB.replacements ∧
    (processSchema 5 cfgA httpsDoc st0).map (fun r => emittedNames r.2) =
      some ["HTTPsServer"] ∧
    (processSchema 5 cfgB httpsDoc st0).map (fun r => emittedNames r.2) =
      some ["HTTPSServer"] ∧
    (processSchema 5 cfgA httpsDoc st0).map (fun r => emittedNames r.2) ≠
      (processSchema 5 cfgB httpsDoc st0).map (fun r => emittedNames r.2) := by
  refine ⟨List.Perm.swap _ _ _, by decide, by decide, by decide⟩

/-- **C2.** A node carrying `"$ref": "#/definitions/Foo"` resolves, in the
reference-resolver pass, to exactly the node stored at `definitions.Foo`
of the root document (the typed walk `# → definitions → Foo`), so it
synthesizes to the same type expression and the same emissions as directly
synthesizing that node; and on a ref-free root the pass leaves the
`definitions` map itself untouched, so `definitions.Foo` after the pass is
that same node. -/
theorem claim2_ref_resolution {fuel : Nat} {root n d : Schema}
    {defs : List (String × Schema)}
    (hdefs : root.definitions = some defs)
    (hfoo : lookupA defs "Foo" = some d)
    (href : n.ref = "#/definitions/Foo") :
    setRoot (fuel + 1) root n = d ∧
    (∀ cfg f2 st, processSchema f2 cfg (setRoot (fuel + 1) root n) st =
      processSchema f2 cfg d st) ∧
    (root.ref = "" → (setRoot (fuel + 1) root root).definitions = root.definitions) := by
  have hsplit : splitSlash "#/definitions/Foo" = ["#", "definitions", "Foo"] := by decide
  have h1 : setRoot (fuel + 1) root n = d := by
    cases n with
    | mk t i ty dd ds ps ap pp r it os c e rb =>
      simp only [Schema.ref] at href
      subst href
      simp only [setRoot]
      rw [if_neg (by decide : ¬ ("#/definitions/Foo" = "")), hsplit]
      have w1 : ∀ ctx, walkOne root ctx "#" = some (.sch root) := by
        intro ctx
        simp [walkOne]
      have w2 : walkOne root (.sch root) "definitions" = some (.smap defs) := by
        simp [walkOne, hdefs]
      have w3 : walkOne root (.smap defs) "Foo" = some (.sch d) := by
        simp [walkOne, hfoo]
      simp only [refWalk, w1, w2, w3]
  refine ⟨h1, fun cfg f2 st => by rw [h1], ?_⟩
  intro hr
  cases root with
  | mk t i ty dd ds ps ap pp r it os c e rb =>
    simp only [Schema.ref] at hr
    subst hr
    simp [setRoot, Schema.definitions]

/-- Witness for C2 at the concrete document `refDocSchema`. -/
theorem claim2_ref_resolution_witness :
    (refDocSchema.definitions = some [("Foo", strSchema)] ∧
      lookupA [("Foo", strSchema)] "Foo" = some strSchema ∧
      refNodeSchema.ref = "#/definitions/Foo") ∧
    (setRoot 9 refDocSchema refNodeSchema = strSchema ∧
      (∀ cfg f2 st, processSchema f2 cfg (setRoot 9 refDocSchema refNodeSchema) st =
        processSchema f2 cfg strSchema st) ∧
      (refDocSchema.ref = "" →
        (setRoot 9 refDocSchema refDocSchema).definitions = refDocSchema.definitions)) :=
  ⟨⟨rfl, rfl, rfl⟩, claim2_ref_resolution rfl rfl rfl⟩

/-! ## Lemmas for the amended C4 -/

theorem rootSet_withTitle (s : Schema) (k : String) : (s.withTitle k).rootSet = s.rootSet := by
  cases s
  rfl

theorem child_withTitle {s c : Schema} {k : String} (h : Child (s.withTitle k) c) :
    Child s c := by
  cases s with
  | mk t i ty d ds ps ap pp r it os cs e rb =>
    cases h with
    | prop hl hm => exact Child.prop hl hm
    | pat hl hm => exact Child.pat hl hm
    | item hi => exact Child.item hi
    | one ho => exact Child.one ho

theorem reachD_withTitle {d : Nat} {k : String} {x t : Schema}
    (h : ReachD d (x.withTitle k) t) : (d = 0 ∧ t = x.withTitle k) ∨ ReachD d x t := by
  cases h with
  | refl => exact Or.inl ⟨rfl, rfl⟩
  | step hc hr => exact Or.inr (ReachD.step (child_withTitle hc) hr)

/-- A ref-free node gets its root flag set by the pass (given fuel). -/
theorem setRoot_rootSet {g : Nat} {root s : Schema} (hf : refFreeB (g + 1) s = true) :
    (setRoot (g + 1) root s).rootSet = true := by
  cases s with
  | mk t i ty d ds ps ap pp r it os cs e rb =>
    simp only [refFreeB, Schema.ref, Bool.and_eq_true, decide_eq_true_eq] at hf
    obtain ⟨⟨⟨⟨href, -⟩, -⟩, -⟩, -⟩ := hf
    simp [setRoot, href, Schema.rootSet]

/-- **C4, amended (reachability half).** In a ref-free document, every
node reachable from the pass's result through properties,
patternProperties, items and `oneOf` edges (within the pass's fuel) has
its root flag set. -/
theorem claim4_reach_aux : ∀ d fuel (root s t : Schema), d < fuel →
    refFreeB fuel s = true → ReachD d (setRoot fuel root s) t → t.rootSet = true := by
  intro d
  induction d with
  | zero =>
    intro fuel root s t hd hf hr
    cases hr
    cases fuel with
    | zero => omega
    | succ g => exact setRoot_rootSet hf
  | succ d ih =>
    intro fuel root s t hd hf hr
    cases hr with
    | step hc hrd =>
      cases fuel with
      | zero => omega
      | succ g =>
        cases s with
        | mk t0 i ty de ds ps ap pp r it os cst en rb =>
          simp only [refFreeB, Schema.ref, Schema.properties, Schema.patternProperties,
            Schema.items, Schema.oneOf, Bool.and_eq_true, decide_eq_true_eq,
            List.all_eq_true] at hf
          obtain ⟨⟨⟨⟨href, hfps⟩, hfpp⟩, hfit⟩, hfos⟩ := hf
          rw [show setRoot (g + 1) root (.mk t0 i ty de ds ps ap pp r it os cst en rb) =
            Schema.mk t0 i ty de ds
              (ps.map (List.map (fun kv =>
                let v := setRoot g root kv.2
                (kv.1, if v.Name = "" then v.withTitle kv.1 else v))))
              ap
              (pp.map (List.map (fun kv => (kv.1, setRoot g root kv.2))))
              r (it.map (setRoot g root)) (os.map (setRoot g root)) cst en true
            from by simp [setRoot, href]] at hc
          have hg : d < g := by omega
          cases hc with
          | prop hl hm =>
            simp only [Schema.properties] at hl
            cases ps with
            | none => exact absurd hl (by simp)
            | some psl =>
              simp only [Option.map_some', Option.some.injEq] at hl
              rw [← hl] at hm
              obtain ⟨⟨k0, v0⟩, hmem, heq⟩ := List.mem_map.mp hm
              simp only at heq
              have hfv : refFreeB g v0 = true := by
                have := hfps (k0, v0) (by simpa using hmem)
                simpa using this
              by_cases hn : (setRoot g root v0).Name = ""
              · rw [if_pos hn] at heq
                obtain ⟨-, hcv⟩ := Prod.mk.injEq .. ▸ heq
                rw [← hcv] at hrd
                rcases reachD_withTitle hrd with ⟨hd0, ht⟩ | hrd2
                · subst hd0
                  subst ht
                  rw [rootSet_withTitle]
                  cases g with
                  | zero => omega
                  | succ g2 => exact setRoot_rootSet hfv
                · exact ih g root v0 t hg hfv hrd2
              · rw [if_neg hn] at heq
                obtain ⟨-, hcv⟩ := Prod.mk.injEq .. ▸ heq
                rw [← hcv] at hrd
                exact ih g root v0 t hg hfv hrd
          | pat hl hm =>
            simp only [Schema.patternProperties] at hl
            cases pp with
            | none => exact absurd hl (by simp)
            | some ppl =>
              simp only [Option.map_some', Option.some.injEq] at hl
              rw [← hl] at hm
              obtain ⟨⟨k0, v0⟩, hmem, heq⟩ := List.mem_map.mp hm
              simp only at heq
              have hfv : refFreeB g v0 = true := by
                have := hfpp (k0, v0) (by simpa using hmem)
                simpa using this
              obtain ⟨-, hcv⟩ := Prod.mk.injEq .. ▸ heq
              rw [← hcv] at hrd
              exact ih g root v0 t hg hfv hrd
          | item hi =>
            simp only [Schema.items] at hi
            cases it with
            | none => exact absurd hi (by simp)
            | some v0 =>
              simp only [Option.map_some', Option.some.injEq] at hi
              rw [← hi] at hrd
              exact ih g root v0 t hg (by simpa using hfit) hrd
          | one ho =>
            simp only [Schema.oneOf] at ho
            obtain ⟨v0, hmem, heq⟩ := List.mem_map.mp ho
            rw [← heq] at hrd
            exact ih g root v0 t hg (hfos v0 hmem) hrd

/-- **C4, amended.** (1) In a ref-free document every node reachable from
the resolver's result through properties, patternProperties, items and
`oneOf` has its root back-reference set before synthesis; (2) the pass
never rewrites the `definitions` map of a node it visits, so nodes stored
only under `definitions` are never visited (the counterexample shows they
keep an unset root, as does a node overwritten by a typed-walk `$ref`
resolution into `definitions`). -/
theorem claim4_root_amended :
    (∀ d fuel (root s t : Schema), d < fuel → refFreeB fuel s = true →
      ReachD d (setRoot fuel root s) t → t.rootSet = true) ∧
    (∀ fuel (root s : Schema), s.ref = "" →
      (setRoot (fuel + 1) root s).definitions = s.definitions) := by
  refine ⟨claim4_reach_aux, ?_⟩
  intro fuel root s hr
  cases s with
  | mk t i ty d ds ps ap pp r it os cs e rb =>
    simp only [Schema.ref] at hr
    subst hr
    simp [setRoot, Schema.definitions]

/-- Witness for the amended C4 at the (ref-free) `Pet` document. -/
theorem claim4_root_amended_witness :
    ((1 < 3 ∧ refFreeB 3 petSchema = true ∧
      ReachD 1 (setRoot 3 petSchema petSchema)
        (Schema.mk "name" "" .STRING "" none none false none "" none [] "" [] true)) ∧
      (Schema.mk "name" "" .STRING "" none none false none "" none [] "" [] true).rootSet =
        true) ∧
    (petSchema.ref = "" ∧
      (setRoot 4 petSchema petSchema).definitions = petSchema.definitions) := by
  have hp : (setRoot 3 petSchema petSchema).properties =
      some [("name", Schema.mk "name" "" .STRING "" none none false none "" none [] "" [] true),
            ("id", Schema.mk "id" "" .INTEGER "" none none false none "" none [] "" [] true)] :=
    rfl
  have hreach : ReachD 1 (setRoot 3 petSchema petSchema)
      (Schema.mk "name" "" .STRING "" none none false none "" none [] "" [] true) :=
    ReachD.step (Child.prop hp (List.mem_cons_self _ _)) (ReachD.refl _)
  exact ⟨⟨⟨by decide, by decide, hreach⟩,
      claim4_root_amended.1 1 3 petSchema petSchema _ (by decide) (by decide) hreach⟩,
    ⟨rfl, claim4_root_amended.2 3 petSchema petSchema rfl⟩⟩

/-! ## Lemmas for the amended C3: where `distributeProps` puts each key -/

theorem mem_keysA_upsertA {α : Type} (l : List (String × α)) (k : String) (v : α)
    (p : String) : p ∈ keysA (upsertA l k v) ↔ p ∈ keysA l ∨ p = k := by
  induction l with
  | nil => simp [upsertA, keysA]
  | cons kv rest ih =>
    simp only [upsertA]
    split
    · next hk =>
      simp only [keysA, List.map_cons, List.mem_cons] at *
      rw [← hk]
      tauto
    · next hk =>
      simp only [keysA, List.map_cons, List.mem_cons] at *
      rw [ih]
      tauto

theorem keysA_addToGroup (g : List (String × (SchemaType × List (String × Schema))))
    (nm p : String) (v : Schema) : keysA (addToGroup g nm p v) = keysA g := by
  induction g with
  | nil => rfl
  | cons e rest ih =>
    simp only [addToGroup, keysA, List.map_cons] at *
    split
    · next he =>
      simp [ih]
    · simp [ih]

/-- The shape of facts we track about a group: the list has an entry for
this name whose properties contain this key. -/
def GroupHas (g : List (String × (SchemaType × List (String × Schema))))
    (nm p : String) : Prop :=
  ∃ e ∈ g, e.1 = nm ∧ p ∈ keysA e.2.2

theorem groupHas_addToGroup {g : List (String × (SchemaType × List (String × Schema)))}
    {nm p : String} (nm2 q : String) (w : Schema) (h : GroupHas g nm p) :
    GroupHas (addToGroup g nm2 q w) nm p := by
  obtain ⟨e, hmem, hnm, hp⟩ := h
  by_cases he : e.1 = nm2
  · refine ⟨(e.1, (e.2.1, upsertA e.2.2 q w)), ?_, hnm, ?_⟩
    · unfold addToGroup
      exact List.mem_map.mpr ⟨e, hmem, by rw [if_pos he]⟩
    · exact (mem_keysA_upsertA _ _ _ _).mpr (Or.inl hp)
  · refine ⟨e, ?_, hnm, hp⟩
    unfold addToGroup
    exact List.mem_map.mpr ⟨e, hmem, by rw [if_neg he]⟩

theorem groupHas_establish {g : List (String × (SchemaType × List (String × Schema)))}
    {nm : String} (p : String) (v : Schema) (h : nm ∈ keysA g) :
    GroupHas (addToGroup g nm p v) nm p := by
  simp only [keysA, List.mem_map] at h
  obtain ⟨e, hmem, hnm⟩ := h
  refine ⟨(e.1, (e.2.1, upsertA e.2.2 p v)), ?_, hnm, ?_⟩
  · unfold addToGroup
    exact List.mem_map.mpr ⟨e, hmem, by rw [if_pos hnm]⟩
  · rw [mem_keysA_upsertA]
    exact Or.inr rfl

theorem groupHas_innerStep {S : List Schema} {nm2 : String}
    {acc : List (String × Schema) × List (String × (SchemaType × List (String × Schema)))}
    {nm p : String} (pv : String × Schema) (h : GroupHas acc.2 nm p) :
    GroupHas (innerStep S nm2 acc pv).2 nm p := by
  unfold innerStep
  split
  · exact h
  · exact groupHas_addToGroup nm2 pv.1 pv.2 h

theorem groupHas_innerFold {S : List Schema} {nm2 : String} (l : List (String × Schema)) :
    ∀ acc {nm p : String}, GroupHas acc.2 nm p →
      GroupHas ((l.foldl (innerStep S nm2) acc)).2 nm p := by
  induction l with
  | nil =>
    intro acc nm p h
    exact h
  | cons pv rest ih =>
    intro acc nm p h
    rw [List.foldl_cons]
    exact ih _ (groupHas_innerStep pv h)

theorem groupHas_outerFold {S : List Schema} (T : List Schema) :
    ∀ acc {nm p : String}, GroupHas acc.2 nm p →
      GroupHas ((T.foldl (outerStep S) acc)).2 nm p := by
  induction T with
  | nil =>
    intro acc nm p h
    exact h
  | cons b T ih =>
    intro acc nm p h
    rw [List.foldl_cons]
    exact ih _ (groupHas_innerFold _ acc h)

theorem keysA_innerFold {S : List Schema} {nm2 : String} (l : List (String × Schema)) :
    ∀ acc, keysA ((l.foldl (innerStep S nm2) acc)).2 = keysA acc.2 := by
  induction l with
  | nil => exact fun acc => rfl
  | cons pv rest ih =>
    intro acc
    rw [List.foldl_cons, ih]
    unfold innerStep
    split
    · rfl
    · exact keysA_addToGroup acc.2 nm2 pv.1 pv.2

theorem keysA_outerFold {S : List Schema} (T : List Schema) :
    ∀ acc, keysA ((T.foldl (outerStep S) acc)).2 = keysA acc.2 := by
  induction T with
  | nil => exact fun acc => rfl
  | cons b T ih =>
    intro acc
    rw [List.foldl_cons, ih]
    exact keysA_innerFold _ acc

theorem name_mem_seedGroups {S : List Schema} {a : Schema} (h : a ∈ S) :
    a.Name ∈ keysA (seedGroups S) := by
  unfold seedGroups
  suffices hgen : ∀ (T : List Schema) acc, a ∈ T ∨ a.Name ∈ keysA acc →
      a.Name ∈ keysA (T.foldl (fun acc sch => upsertA acc sch.Name (sch.type, [])) acc) by
    exact hgen S [] (Or.inl h)
  intro T
  induction T with
  | nil =>
    intro acc h2
    rcases h2 with h2 | h2
    · simp at h2
    · exact h2
  | cons b T ih =>
    intro acc h2
    rw [List.foldl_cons]
    rcases h2 with h2 | h2
    · rcases List.mem_cons.mp h2 with h2 | h2
      · subst h2
        exact ih _ (Or.inr ((mem_keysA_upsertA _ _ _ _).mpr (Or.inr rfl)))
      · exact ih _ (Or.inl h2)
    · exact ih _ (Or.inr ((mem_keysA_upsertA _ _ _ _).mpr (Or.inl h2)))

theorem estab_innerFold {S : List Schema} {nm : String} (l : List (String × Schema)) :
    ∀ acc {p : String} {v : Schema}, (p, v) ∈ l → ¬ allCount S p > 1 → nm ∈ keysA acc.2 →
      GroupHas ((l.foldl (innerStep S nm) acc)).2 nm p := by
  induction l with
  | nil =>
    intro acc p v h
    simp at h
  | cons pv rest ih =>
    intro acc p v hmem hcount hnm
    rw [List.foldl_cons]
    rcases List.mem_cons.mp hmem with hmem | hmem
    · obtain rfl : pv = (p, v) := hmem.symm
      have hstep : GroupHas (innerStep S nm acc (p, v)).2 nm p := by
        unfold innerStep
        simp only
        rw [if_neg hcount]
        exact groupHas_establish p v hnm
      exact groupHas_innerFold rest _ hstep
    · refine ih _ hmem hcount ?_
      unfold innerStep
      split
      · exact hnm
      · rw [keysA_addToGroup]
        exact hnm

/-- Which keys the merged node's property map ends with, through the
distribution of one alternative. -/
theorem keys_merged_innerFold {S : List Schema} {nm : String} (l : List (String × Schema)) :
    ∀ acc (p : String), p ∈ keysA ((l.foldl (innerStep S nm) acc)).1 ↔
      p ∈ keysA acc.1 ∨ (p ∈ keysA l ∧ allCount S p > 1) := by
  induction l with
  | nil =>
    intro acc p
    simp [keysA]
  | cons pv rest ih =>
    intro acc p
    rw [List.foldl_cons, ih]
    by_cases hc : allCount S pv.1 > 1
    · have hstep : (innerStep S nm acc pv).1 = upsertA acc.1 pv.1 pv.2 := by
        unfold innerStep
        rw [if_pos hc]
    
      rw [hstep, mem_keysA_upsertA]
      simp only [keysA, List.map_cons, List.mem_cons]
      by_cases hp : p = pv.1
      · subst hp
        tauto
      · tauto
    · have hstep : (innerStep S nm acc pv).1 = acc.1 := by
        unfold innerStep
        rw [if_neg hc]
      rw [hstep]
      simp only [keysA, List.map_cons, List.mem_cons]
      by_cases hp : p = pv.1
      · subst hp
        tauto
      · tauto

theorem keys_merged_outerFold {S : List Schema} (T : List Schema) :
    ∀ acc (p : String), p ∈ keysA ((T.foldl (outerStep S) acc)).1 ↔
      p ∈ keysA acc.1 ∨
        ∃ a ∈ T, p ∈ keysA (a.properties.getD []) ∧ allCount S p > 1 := by
  induction T with
  | nil =>
    intro acc p
    simp
  | cons b T ih =>
    intro acc p
    rw [List.foldl_cons, ih]
    unfold outerStep
    rw [keys_merged_innerFold]
    simp only [List.mem_cons]
    constructor
    · rintro ((h | ⟨h1, h2⟩) | ⟨a, ha, h1, h2⟩)
      · exact Or.inl h
      · exact Or.inr ⟨b, Or.inl rfl, h1, h2⟩
      · exact Or.inr ⟨a, Or.inr ha, h1, h2⟩
    · rintro (h | ⟨a, (ha | ha), h1, h2⟩)
      · exact Or.inl (Or.inl h)
      · subst ha
        exact Or.inl (Or.inr ⟨h1, h2⟩)
      · exact Or.inr ⟨a, ha, h1, h2⟩

theorem allCount_exists {S : List Schema} {p : String} (h : allCount S p ≥ 1) :
    ∃ a ∈ S, (lookupA (a.properties.getD []) p).isSome := by
  unfold allCount at h
  cases hf : S.filter (fun sch => (lookupA (sch.properties.getD []) p).isSome) with
  | nil =>
    rw [hf] at h
    simp at h
  | cons a rest =>
    have ha : a ∈ S.filter (fun sch => (lookupA (sch.properties.getD []) p).isSome) := by
      rw [hf]
      exact List.mem_cons_self a rest
    exact ⟨a, List.mem_of_mem_filter ha, by simpa using List.of_mem_filter ha⟩

set_option maxRecDepth 16000 in
/-- **C3, amended.** Every property key occurring in more than one
alternative becomes a key of the merged node's property map (and only
those do); every key occurring in at most one alternative is placed in the
synthetic group keyed by its alternative's **derived name** — so the
groups are per-alternative only when the names are distinct.  With the
claim's example alternatives given distinct names `Foo` and `Bar`, the
merge produces the common field `a` and two inline extension groups
carrying `b` and `c` respectively, rendered as inline fields of the
emitted merged struct. -/
theorem claim3_merge_amended :
    (∀ (S : List Schema) (p : String),
      p ∈ keysA (distributeProps S).1 ↔ allCount S p > 1) ∧
    (∀ (S : List Schema) (a : Schema) (p : String) (v : Schema), a ∈ S →
      (p, v) ∈ a.properties.getD [] → ¬ allCount S p > 1 →
      GroupHas (distributeProps S).2 a.Name p) ∧
    (distributeProps [altFoo, altBar]).1.map (fun e => e.1) = ["a"] ∧
    (distributeProps [altFoo, altBar]).2.map (fun g => (g.1, keysA g.2.2)) =
      [("Foo", ["b"]), ("Bar", ["c"])] ∧
    (processSchema 8 defaultCfg namedUnionDoc st0).map (fun r => emittedNames r.2) =
      some ["Bar", "Foo", "Thing"] ∧
    (processSchema 8 defaultCfg namedUnionDoc st0).map
        (fun r => (r.2.emitted.filter (fun e => e.1 = "Thing")).map (fun e => e.2)) =
      some ["type Thing struct \x7b\n" ++ fieldLine defaultCfg "a" "string" ++
        inlineLine defaultCfg "Bar" "*Bar" ++ inlineLine defaultCfg "Foo" "*Foo" ++
        "\x7d\n\n"] := by
  refine ⟨?_, ?_, by decide, by decide, by decide, by decide⟩
  · intro S p
    unfold distributeProps
    rw [keys_merged_outerFold]
    simp only [keysA, List.map_nil, List.not_mem_nil, false_or]
    constructor
    · rintro ⟨a, -, -, h⟩
      exact h
    · intro h
      obtain ⟨a, ha, hsome⟩ := allCount_exists (Nat.le_of_lt h)
      exact ⟨a, ha, (lookupA_isSome_iff _ _).mp hsome, h⟩
  · intro S a p v ha hmem hcount
    unfold distributeProps
    obtain ⟨T1, T2, rfl⟩ := List.append_of_mem ha
    rw [List.foldl_append, List.foldl_cons]
    refine groupHas_outerFold T2 _ ?_
    refine estab_innerFold _ _ hmem hcount ?_
    rw [keysA_outerFold]
    exact name_mem_seedGroups (List.mem_append_right T1 (List.mem_cons_self a T2))

/-- Witness for the amended C3: the key `a` is common, `b` is unique to
the `Foo` alternative. -/
theorem claim3_merge_amended_witness :
    ("a" ∈ keysA (distributeProps [altFoo, altBar]).1 ↔
      allCount [altFoo, altBar] "a" > 1) ∧
    (altFoo ∈ [altFoo, altBar] ∧ ("b", strSchema) ∈ altFoo.properties.getD [] ∧
      ¬ allCount [altFoo, altBar] "b" > 1 ∧
      GroupHas (distributeProps [altFoo, altBar]).2 altFoo.Name "b") :=
  ⟨claim3_merge_amended.1 [altFoo, altBar] "a",
    ⟨List.mem_cons_self _ _, by simp [altFoo, Schema.properties], by decide,
      claim3_merge_amended.2.1 [altFoo, altBar] altFoo "b" strSchema
        (List.mem_cons_self _ _) (by simp [altFoo, Schema.properties]) (by decide)⟩⟩

/-! ## Generic association-list machinery for the order-independence
theorem (amended C9) -/

theorem lookupA_cons {α : Type} (kv : String × α) (rest : List (String × α)) (p : String) :
    lookupA (kv :: rest) p = if kv.1 = p then some kv.2 else lookupA rest p := by
  by_cases hk : kv.1 = p
  · unfold lookupA
    rw [List.find?_cons_of_pos _ (by simp [hk]), if_pos hk]
    rfl
  · unfold lookupA
    rw [List.find?_cons_of_neg _ (by simp [hk]), if_neg hk]

theorem keysA_cons {α : Type} (kv : String × α) (rest : List (String × α)) :
    keysA (kv :: rest) = kv.1 :: keysA rest := rfl

theorem keysA_append {α : Type} (l₁ l₂ : List (String × α)) :
    keysA (l₁ ++ l₂) = keysA l₁ ++ keysA l₂ := by
  simp [keysA]

theorem keysA_reverse {α : Type} (l : List (String × α)) :
    keysA l.reverse = (keysA l).reverse := by
  simp [keysA]

theorem lookupA_append {α : Type} (l₁ l₂ : List (String × α)) (p : String) :
    lookupA (l₁ ++ l₂) p = if p ∈ keysA l₁ then lookupA l₁ p else lookupA l₂ p := by
  induction l₁ with
  | nil => simp [keysA, lookupA]
  | cons kv rest ih =>
    rw [List.cons_append, lookupA_cons, lookupA_cons, keysA_cons]
    by_cases hk : kv.1 = p
    · rw [if_pos hk, if_pos (by simp [hk]), if_pos hk]
    · rw [if_neg hk, ih, if_neg hk]
      by_cases hm : p ∈ keysA rest
      · rw [if_pos hm, if_pos (by simp [hm])]
      · rw [if_neg hm, if_neg (by
          intro hcon
          rcases List.mem_cons.mp hcon with h | h
          · exact hk h.symm
          · exact hm h)]

theorem lookupA_upsertA_self {α : Type} (l : List (String × α)) (k : String) (v : α) :
    lookupA (upsertA l k v) k = some v := by
  induction l with
  | nil => simp [upsertA, lookupA_cons]
  | cons kv rest ih =>
    unfold upsertA
    split
    · rw [lookupA_cons, if_pos rfl]
    · next hk =>
      rw [lookupA_cons, if_neg hk, ih]

theorem lookupA_upsertA_ne {α : Type} (l : List (String × α)) (k p : String) (v : α)
    (h : k ≠ p) : lookupA (upsertA l k v) p = lookupA l p := by
  induction l with
  | nil => simp [upsertA, lookupA_cons, lookupA, h]
  | cons kv rest ih =>
    unfold upsertA
    split
    · next hk =>
      rw [lookupA_cons, lookupA_cons, if_neg h, if_neg (by rw [hk]; exact h)]
    · rw [lookupA_cons, lookupA_cons, ih]

theorem lookupA_foldUpserts {α : Type} (m : List (String × α)) :
    ∀ (props : List (String × α)) (p : String),
      lookupA (foldUpserts props m) p =
        if p ∈ keysA m then lookupA m.reverse p else lookupA props p := by
  induction m with
  | nil =>
    intro props p
    simp [foldUpserts, keysA]
  | cons pv rest ih =>
    intro props p
    have hstep : foldUpserts props (pv :: rest) = foldUpserts (upsertA props pv.1 pv.2) rest :=
      rfl
    rw [hstep, ih, List.reverse_cons, keysA_cons]
    by_cases h1 : p ∈ keysA rest
    · rw [if_pos h1, if_pos (by simp [h1]), lookupA_append,
        if_pos (by rw [keysA_reverse]; simpa using h1)]
    · by_cases h2 : pv.1 = p
      · rw [if_neg h1, if_pos (by simp [h2]), lookupA_append,
          if_neg (by rw [keysA_reverse]; simpa using h1), ← h2, lookupA_upsertA_self,
          lookupA_cons, if_pos rfl]
      · rw [if_neg h1, if_neg (by
          intro hcon
          rcases List.mem_cons.mp hcon with h | h
          · exact h2 h.symm
          · exact h1 h), lookupA_upsertA_ne _ _ _ _ h2]

theorem mem_keys_foldUpserts {α : Type} (m : List (String × α)) :
    ∀ (props : List (String × α)) (p : String),
      p ∈ keysA (foldUpserts props m) ↔ p ∈ keysA props ∨ p ∈ keysA m := by
  induction m with
  | nil =>
    intro props p
    simp [foldUpserts, keysA]
  | cons pv rest ih =>
    intro props p
    have hstep : foldUpserts props (pv :: rest) = foldUpserts (upsertA props pv.1 pv.2) rest :=
      rfl
    rw [hstep, ih, mem_keysA_upsertA, keysA_cons]
    simp only [List.mem_cons]
    constructor
    · rintro ((h | h) | h)
      · exact Or.inl h
      · exact Or.inr (Or.inl h)
      · exact Or.inr (Or.inr h)
    · rintro (h | (h | h))
      · exact Or.inl (Or.inl h)
      · exact Or.inl (Or.inr h)
      · exact Or.inr h

theorem nodup_keysA_upsertA {α : Type} {l : List (String × α)} (k : String) (v : α)
    (h : (keysA l).Nodup) : (keysA (upsertA l k v)).Nodup := by
  induction l with
  | nil => simp [upsertA, keysA]
  | cons kv rest ih =>
    rw [keysA_cons, List.nodup_cons] at h
    obtain ⟨hh, ht⟩ := h
    unfold upsertA
    split
    · next hk =>
      rw [keysA_cons, List.nodup_cons]
      exact ⟨by rw [← hk]; exact hh, ht⟩
    · next hk =>
      rw [keysA_cons, List.nodup_cons]
      refine ⟨?_, ih ht⟩
      intro hcon
      rcases (mem_keysA_upsertA rest k v kv.1).mp hcon with hcon | hcon
      · exact hh hcon
      · exact hk hcon

theorem nodup_keys_foldUpserts {α : Type} (m : List (String × α)) :
    ∀ (props : List (String × α)), (keysA props).Nodup →
      (keysA (foldUpserts props m)).Nodup := by
  induction m with
  | nil => exact fun props h => h
  | cons pv rest ih =>
    intro props h
    exact ih _ (nodup_keysA_upsertA pv.1 pv.2 h)

theorem lookupA_reverse_of_nodup {α : Type} {l : List (String × α)}
    (h : (keysA l).Nodup) (p : String) : lookupA l.reverse p = lookupA l p := by
  induction l with
  | nil => rfl
  | cons kv rest ih =>
    rw [keysA_cons, List.nodup_cons] at h
    obtain ⟨hh, ht⟩ := h
    rw [List.reverse_cons, lookupA_append]
    by_cases hk : kv.1 = p
    · rw [if_neg (by rw [keysA_reverse, ← hk]; simpa using hh)]
      show lookupA [kv] p = lookupA (kv :: rest) p
      rw [lookupA_cons, lookupA_cons, if_pos hk, if_pos hk]
    · by_cases hm : p ∈ keysA rest
      · rw [if_pos (by rw [keysA_reverse]; simpa using hm), ih ht, lookupA_cons, if_neg hk]
      · rw [if_neg (by rw [keysA_reverse]; simpa using hm)]
        show lookupA [kv] p = lookupA (kv :: rest) p
        rw [lookupA_cons, lookupA_cons, if_neg hk, if_neg hk, lookupA_eq_none hm]
        rfl

/-! ## Basic facts about `SEquiv` -/

theorem SEquiv.empty_refl : SEquiv Schema.empty Schema.empty := by
  unfold Schema.empty
  refine SEquiv.mk rfl ?_ ?_ rfl ?_ ?_ rfl ?_ ?_ rfl ?_ rfl ?_
  · intro l₁ l₂ h
    cases h
  · intro l₁ l₂ k v₁ v₂ h
    cases h
  · intro l₁ l₂ h
    cases h
  · intro l₁ l₂ k v₁ v₂ h
    cases h
  · intro l₁ l₂ h
    cases h
  · intro l₁ l₂ k v₁ v₂ h
    cases h
  · intro a₁ a₂ h
    cases h
  · intro p hp
    simp at hp

theorem SEquiv.name_eq {a b : Schema} (h : SEquiv a b) : a.Name = b.Name := by
  cases h
  rfl

theorem SEquiv.type_eq {a b : Schema} (h : SEquiv a b) : a.type = b.type := by
  cases h
  rfl

theorem SEquiv.rootSet_eq {a b : Schema} (h : SEquiv a b) : a.rootSet = b.rootSet := by
  cases h
  rfl

theorem SEquiv.props_isSome {a b : Schema} (h : SEquiv a b) :
    a.properties.isSome = b.properties.isSome := by
  cases h with
  | mk hdsn hdsK hdsV hpsn hpsK hpsV hppn hppK hppV hitn hit hlen hos => exact hpsn

theorem SEquiv.props_rel {a b : Schema} (h : SEquiv a b) :
    ∀ l₁ l₂, a.properties = some l₁ → b.properties = some l₂ →
      KeysMatch l₁ l₂ ∧
      ∀ k v₁ v₂, lookupA l₁ k = some v₁ → lookupA l₂ k = some v₂ → SEquiv v₁ v₂ := by
  cases h with
  | mk hdsn hdsK hdsV hpsn hpsK hpsV hppn hppK hppV hitn hit hlen hos =>
    exact fun l₁ l₂ h₁ h₂ =>
      ⟨hpsK l₁ l₂ h₁ h₂, fun k v₁ v₂ hv₁ hv₂ => hpsV l₁ l₂ k v₁ v₂ h₁ h₂ hv₁ hv₂⟩

/-- The `getD Schema.empty` view of two related property maps: the values
looked up under any key are `SEquiv` (both present or both absent). -/
theorem SEquiv.lookup_getD {l₁ l₂ : List (String × Schema)}
    (hK : KeysMatch l₁ l₂)
    (hV : ∀ k v₁ v₂, lookupA l₁ k = some v₁ → lookupA l₂ k = some v₂ → SEquiv v₁ v₂)
    (k : String) :
    SEquiv ((lookupA l₁ k).getD Schema.empty) ((lookupA l₂ k).getD Schema.empty) := by
  obtain ⟨-, -, hperm⟩ := hK
  cases h₁ : lookupA l₁ k with
  | none =>
    have hk1 : k ∉ keysA l₁ := by
      intro hmem
      have := (lookupA_isSome_iff l₁ k).mpr hmem
      rw [h₁] at this
      simp at this
    have hk2 : k ∉ keysA l₂ := fun hmem => hk1 (hperm.mem_iff.mpr hmem)
    rw [lookupA_eq_none hk2]
    exact SEquiv.empty_refl
  | some v₁ =>
    have hk1 : k ∈ keysA l₁ := (lookupA_isSome_iff l₁ k).mp (by simp [h₁])
    have hk2 : k ∈ keysA l₂ := hperm.mem_iff.mp hk1
    cases h₂ : lookupA l₂ k with
    | none =>
      have := (lookupA_isSome_iff l₂ k).mpr hk2
      rw [h₂] at this
      simp at this
    | some v₂ =>
      simpa using hV k v₁ v₂ h₁ h₂

/-! ## The distribution loop as a sequence of map writes -/

theorem concatPieces_cons {α : Type} (f : Schema → List α) (a : Schema) (T : List Schema) :
    concatPieces f (a :: T) = f a ++ concatPieces f T := rfl

theorem foldUpserts_append {α : Type} (props : List (String × α))
    (m₁ m₂ : List (String × α)) :
    foldUpserts props (m₁ ++ m₂) = foldUpserts (foldUpserts props m₁) m₂ := by
  unfold foldUpserts
  rw [List.foldl_append]

/-- The merged-properties component of the distribution of one
alternative is the sequence of its common-key writes. -/
theorem fst_innerFold (S : List Schema) (nm : String) (l : List (String × Schema)) :
    ∀ acc, ((l.foldl (innerStep S nm) acc)).1 =
      foldUpserts acc.1 (l.filter (fun pv => allCount S pv.1 > 1)) := by
  induction l with
  | nil =>
    intro acc
    rfl
  | cons pv rest ih =>
    intro acc
    rw [List.foldl_cons, ih]
    by_cases hc : allCount S pv.1 > 1
    · rw [List.filter_cons_of_pos (by simpa using hc)]
      have hstep : (innerStep S nm acc pv).1 = upsertA acc.1 pv.1 pv.2 := by
        unfold innerStep
        rw [if_pos hc]
      rw [hstep]
      rfl
    · rw [List.filter_cons_of_neg (by simpa using hc)]
      have hstep : (innerStep S nm acc pv).1 = acc.1 := by
        unfold innerStep
        rw [if_neg hc]
      rw [hstep]

/-- The merged-properties component of the whole distribution is the
sequence of all common-key writes, in document order. -/
theorem fst_outerFold (S : List Schema) (T : List Schema) :
    ∀ acc, ((T.foldl (outerStep S) acc)).1 =
      foldUpserts acc.1
        (concatPieces (fun a => (a.properties.getD []).filter
          (fun pv => allCount S pv.1 > 1)) T) := by
  induction T with
  | nil =>
    intro acc
    rfl
  | cons a T ih =>
    intro acc
    rw [List.foldl_cons, ih, concatPieces_cons, foldUpserts_append]
    have houter : (outerStep S acc a).1 =
        foldUpserts acc.1 ((a.properties.getD []).filter (fun pv => allCount S pv.1 > 1)) :=
      fst_innerFold S a.Name (a.properties.getD []) acc
    rw [houter]

theorem lookup_merged (S : List Schema) (p : String) :
    lookupA (distributeProps S).1 p =
      if p ∈ keysA (mergedPieces S) then lookupA (mergedPieces S).reverse p else none := by
  unfold distributeProps
  rw [fst_outerFold, lookupA_foldUpserts]
  rfl

theorem nodup_keys_merged (S : List Schema) : (keysA (distributeProps S).1).Nodup := by
  unfold distributeProps
  rw [fst_outerFold]
  exact nodup_keys_foldUpserts _ [] (by simp [keysA])

theorem mem_keys_merged (S : List Schema) (p : String) :
    p ∈ keysA (distributeProps S).1 ↔ p ∈ keysA (mergedPieces S) := by
  unfold distributeProps
  rw [fst_outerFold]
  have := mem_keys_foldUpserts
    (concatPieces (fun a => (a.properties.getD []).filter
      (fun pv => allCount S pv.1 > 1)) S) ([] : List (String × Schema)) p
  rw [this]
  simp [keysA, mergedPieces]

/-- `lookupA` through a key-preserving `map`. -/
theorem lookupA_map_of_keys {α β : Type} (F : String × α → String × β) (G : String → α → β)
    (hk : ∀ kv, (F kv).1 = kv.1) (hv : ∀ kv, (F kv).2 = G kv.1 kv.2)
    (m : List (String × α)) (p : String) :
    lookupA (m.map F) p = (lookupA m p).map (G p) := by
  induction m with
  | nil => rfl
  | cons kv rest ih =>
    rw [List.map_cons, lookupA_cons, lookupA_cons, hk]
    by_cases hkv : kv.1 = p
    · rw [if_pos hkv, if_pos hkv, Option.map_some', hv, hkv]
    · rw [if_neg hkv, if_neg hkv, ih]

/-- `lookupA` after one `addToGroup`. -/
theorem lookupA_addToGroup (g : List (String × (SchemaType × List (String × Schema))))
    (nm q : String) (w : Schema) (nm2 : String) :
    lookupA (addToGroup g nm q w) nm2 =
      (lookupA g nm2).map (fun e => if nm2 = nm then (e.1, upsertA e.2 q w) else e) := by
  unfold addToGroup
  refine lookupA_map_of_keys _ (fun k e => if k = nm then (e.1, upsertA e.2 q w) else e)
    (fun kv => ?_) (fun kv => ?_) g nm2
  · by_cases h : kv.1 = nm <;> simp [h]
  · by_cases h : kv.1 = nm <;> simp [h]

/-- The group component of the distribution of one alternative: the group
keyed by the alternative's name accumulates the uncommon writes, every
other group is untouched. -/
theorem snd_innerFold (S : List Schema) (nm : String) (l : List (String × Schema)) :
    ∀ acc nm2, lookupA ((l.foldl (innerStep S nm) acc)).2 nm2 =
      (lookupA acc.2 nm2).map (fun e =>
        if nm2 = nm then
          (e.1, foldUpserts e.2 (l.filter (fun pv => ¬ allCount S pv.1 > 1)))
        else e) := by
  induction l with
  | nil =>
    intro acc nm2
    rw [List.foldl_nil]
    cases h : lookupA acc.2 nm2 with
    | none => rfl
    | some e =>
      simp only [Option.map_some', List.filter_nil]
      by_cases hn : nm2 = nm
      · rw [if_pos hn]
        rfl
      · rw [if_neg hn]
  | cons pv rest ih =>
    intro acc nm2
    rw [List.foldl_cons, ih]
    by_cases hc : allCount S pv.1 > 1
    · rw [List.filter_cons_of_neg (by simp [hc])]
      have hstep : (innerStep S nm acc pv).2 = acc.2 := by
        unfold innerStep
        rw [if_pos hc]
      rw [hstep]
    · rw [List.filter_cons_of_pos (by simp [hc])]
      have hstep : (innerStep S nm acc pv).2 = addToGroup acc.2 nm pv.1 pv.2 := by
        unfold innerStep
        rw [if_neg hc]
      rw [hstep, lookupA_addToGroup, Option.map_map]
      cases h : lookupA acc.2 nm2 with
      | none => rfl
      | some e =>
        simp only [Option.map_some', Function.comp]
        by_cases hn : nm2 = nm
        · simp [hn, foldUpserts]
        · simp [hn]

/-- The group component of the whole distribution: each group ends as its
seed extended by that name's uncommon writes, in document order. -/
theorem snd_outerFold (S : List Schema) (T : List Schema) :
    ∀ acc nm2, lookupA ((T.foldl (outerStep S) acc)).2 nm2 =
      (lookupA acc.2 nm2).map (fun e =>
        (e.1, foldUpserts e.2
          (concatPieces (fun a => if a.Name = nm2 then
            (a.properties.getD []).filter (fun pv => ¬ allCount S pv.1 > 1) else []) T))) := by
  induction T with
  | nil =>
    intro acc nm2
    rw [List.foldl_nil]
    cases h : lookupA acc.2 nm2 with
    | none => rfl
    | some e => rfl
  | cons a T ih =>
    intro acc nm2
    rw [List.foldl_cons, ih]
    have houter : ∀ nm3, lookupA ((outerStep S acc a)).2 nm3 =
        (lookupA acc.2 nm3).map (fun e =>
          if nm3 = a.Name then
            (e.1, foldUpserts e.2 ((a.properties.getD []).filter
              (fun pv => ¬ allCount S pv.1 > 1)))
          else e) :=
      fun nm3 => snd_innerFold S a.Name (a.properties.getD []) acc nm3
    rw [houter, Option.map_map]
    cases h : lookupA acc.2 nm2 with
    | none => rfl
    | some e =>
      simp only [Option.map_some', Function.comp]
      rw [concatPieces_cons]
      by_cases hn : nm2 = a.Name
      · simp [hn, foldUpserts_append]
      · have hn2 : ¬ a.Name = nm2 := fun hcon => hn hcon.symm
        simp [hn, hn2]

theorem lookup_groups (S : List Schema) (nm : String) :
    lookupA (distributeProps S).2 nm =
      (lookupA (seedGroups S) nm).map (fun e => (e.1, foldUpserts e.2 (groupPieces S nm))) := by
  unfold distributeProps
  rw [snd_outerFold]
  rfl

/-! ## Key-predicate filters -/

theorem keysA_filter_key {α : Type} (q : String → Bool) (l : List (String × α)) (p : String) :
    p ∈ keysA (l.filter (fun pv => q pv.1)) ↔ p ∈ keysA l ∧ q p = true := by
  induction l with
  | nil => simp [keysA]
  | cons kv rest ih =>
    by_cases hq : q kv.1 = true
    · rw [List.filter_cons_of_pos (by exact hq), keysA_cons, keysA_cons]
      constructor
      · intro h
        rcases List.mem_cons.mp h with h | h
        · exact ⟨List.mem_cons.mpr (Or.inl h), by rw [h]; exact hq⟩
        · have := ih.mp h
          exact ⟨List.mem_cons.mpr (Or.inr this.1), this.2⟩
      · rintro ⟨hm, hqp⟩
        rcases List.mem_cons.mp hm with h | h
        · exact List.mem_cons.mpr (Or.inl h)
        · exact List.mem_cons.mpr (Or.inr (ih.mpr ⟨h, hqp⟩))
    · rw [List.filter_cons_of_neg (by simpa using hq), keysA_cons]
      constructor
      · intro h
        have := ih.mp h
        exact ⟨List.mem_cons.mpr (Or.inr this.1), this.2⟩
      · rintro ⟨hm, hqp⟩
        rcases List.mem_cons.mp hm with h | h
        · exact absurd (h ▸ hqp) hq
        · exact ih.mpr ⟨h, hqp⟩

theorem lookupA_filter_key {α : Type} (q : String → Bool) (l : List (String × α)) (p : String) :
    lookupA (l.filter (fun pv => q pv.1)) p = if q p = true then lookupA l p else none := by
  induction l with
  | nil =>
    rw [List.filter_nil]
    split <;> rfl
  | cons kv rest ih =>
    by_cases hq : q kv.1 = true
    · rw [List.filter_cons_of_pos (by exact hq), lookupA_cons]
      by_cases hk : kv.1 = p
      · rw [if_pos hk, if_pos (show q p = true by rw [← hk]; exact hq), lookupA_cons, if_pos hk]
      · rw [if_neg hk, ih]
        by_cases hqp : q p = true
        · rw [if_pos hqp, if_pos hqp, lookupA_cons, if_neg hk]
        · rw [if_neg hqp, if_neg hqp]
    · rw [List.filter_cons_of_neg (by simpa using hq), ih]
      by_cases hqp : q p = true
      · rw [if_pos hqp, if_pos hqp, lookupA_cons,
          if_neg (fun hcon : kv.1 = p => hq (by rw [hcon]; exact hqp))]
      · rw [if_neg hqp, if_neg hqp]

theorem nodup_keysA_filter {α : Type} (c : String × α → Bool) {l : List (String × α)}
    (h : (keysA l).Nodup) : (keysA (l.filter c)).Nodup := by
  have hsub : (keysA (l.filter c)).Sublist (keysA l) := by
    unfold keysA
    exact List.Sublist.map (fun kv => kv.1) (List.filter_sublist l)
  exact List.Nodup.sublist hsub h

theorem length_keysA {α : Type} (l : List (String × α)) : (keysA l).length = l.length := by
  simp [keysA]

/-! ## Transfer of lookups across `SEquiv` -/

theorem OptSEquiv.getD {o₁ o₂ : Option Schema} (h : OptSEquiv o₁ o₂) :
    SEquiv (o₁.getD Schema.empty) (o₂.getD Schema.empty) := by
  obtain ⟨hs, hv⟩ := h
  cases o₁ with
  | none =>
    cases o₂ with
    | none => exact SEquiv.empty_refl
    | some v₂ => simp at hs
  | some v₁ =>
    cases o₂ with
    | none => simp at hs
    | some v₂ => simpa using hv v₁ v₂ rfl rfl

theorem OptSEquiv_lookup {l₁ l₂ : List (String × Schema)} (hK : KeysMatch l₁ l₂)
    (hV : ∀ k v₁ v₂, lookupA l₁ k = some v₁ → lookupA l₂ k = some v₂ → SEquiv v₁ v₂)
    (p : String) : OptSEquiv (lookupA l₁ p) (lookupA l₂ p) := by
  obtain ⟨-, -, hperm⟩ := hK
  refine ⟨?_, fun v₁ v₂ h₁ h₂ => hV p v₁ v₂ h₁ h₂⟩
  by_cases hm : p ∈ keysA l₁
  · rw [(lookupA_isSome_iff l₁ p).mpr hm, (lookupA_isSome_iff l₂ p).mpr (hperm.mem_iff.mp hm)]
  · rw [lookupA_eq_none hm, lookupA_eq_none (fun hc => hm (hperm.mem_iff.mpr hc))]

/-- The property maps of two related schemas, read through `getD []`:
matching keys and pointwise-related values. -/
theorem SEquiv.props_getD {a b : Schema} (h : SEquiv a b) :
    KeysMatch (a.properties.getD []) (b.properties.getD []) ∧
    ∀ k v₁ v₂, lookupA (a.properties.getD []) k = some v₁ →
      lookupA (b.properties.getD []) k = some v₂ → SEquiv v₁ v₂ := by
  cases h₁ : a.properties with
  | none =>
    cases h₂ : b.properties with
    | none =>
      refine ⟨⟨List.nodup_nil, List.nodup_nil, List.Perm.refl _⟩, ?_⟩
      intro k v₁ v₂ hv₁ hv₂
      simp [lookupA] at hv₁
    | some l₂ =>
      have := h.props_isSome
      rw [h₁, h₂] at this
      simp at this
  | some l₁ =>
    cases h₂ : b.properties with
    | none =>
      have := h.props_isSome
      rw [h₁, h₂] at this
      simp at this
    | some l₂ =>
      have := h.props_rel l₁ l₂ h₁ h₂
      simpa using this

theorem SEquiv.mem_keys_props {a b : Schema} (h : SEquiv a b) (p : String) :
    p ∈ keysA (a.properties.getD []) ↔ p ∈ keysA (b.properties.getD []) :=
  (h.props_getD.1.2.2).mem_iff

theorem SEquiv.lookup_props_isSome {a b : Schema} (h : SEquiv a b) (p : String) :
    (lookupA (a.properties.getD []) p).isSome = (lookupA (b.properties.getD []) p).isSome :=
  (OptSEquiv_lookup h.props_getD.1 h.props_getD.2 p).1

/-- `allProperties` counting sees only key membership, so it is invariant
under reordering every alternative's property map. -/
theorem allCount_congr : ∀ (S₁ S₂ : List Schema), S₁.length = S₂.length →
    (∀ pr ∈ S₁.zip S₂, SEquiv pr.1 pr.2) → ∀ p, allCount S₁ p = allCount S₂ p := by
  intro S₁
  induction S₁ with
  | nil =>
    intro S₂ hlen _ p
    cases S₂ with
    | nil => rfl
    | cons b S₂ => simp at hlen
  | cons a S₁ ih =>
    intro S₂ hlen hzip p
    cases S₂ with
    | nil => simp at hlen
    | cons b S₂ =>
      have hab : SEquiv a b := hzip (a, b) (by rw [List.zip_cons_cons]; exact List.mem_cons_self _ _)
      have htl := ih S₂ (by simpa using hlen)
        (fun pr hpr => hzip pr (by rw [List.zip_cons_cons]; exact List.mem_cons_of_mem _ hpr)) p
      simp only [allCount, List.filter_cons] at htl ⊢
      rw [hab.lookup_props_isSome p]
      by_cases hs : (lookupA (b.properties.getD []) p).isSome = true
      · rw [if_pos hs, if_pos hs, List.length_cons, List.length_cons, htl]
      · rw [if_neg hs, if_neg hs, htl]

/-- The common-or-uncommon filtered slice of one alternative's property
map transfers across `SEquiv` (key membership). -/
theorem piece_mem_of_sequiv {a b : Schema} (hab : SEquiv a b) (q₁ q₂ : String → Bool)
    (hq : ∀ p, q₁ p = q₂ p) (p : String) :
    p ∈ keysA ((a.properties.getD []).filter (fun pv => q₁ pv.1)) ↔
    p ∈ keysA ((b.properties.getD []).filter (fun pv => q₂ pv.1)) := by
  rw [keysA_filter_key, keysA_filter_key, hq p]
  exact and_congr_left fun _ => hab.mem_keys_props p

/-- The filtered slice of one alternative's property map transfers across
`SEquiv` (reversed lookup, i.e. last-write-wins read). -/
theorem piece_lookup_of_sequiv {a b : Schema} (hab : SEquiv a b) (q₁ q₂ : String → Bool)
    (hq : ∀ p, q₁ p = q₂ p) (p : String) :
    OptSEquiv (lookupA ((a.properties.getD []).filter (fun pv => q₁ pv.1)).reverse p)
      (lookupA ((b.properties.getD []).filter (fun pv => q₂ pv.1)).reverse p) := by
  obtain ⟨⟨hn₁, hn₂, hperm⟩, hV⟩ := hab.props_getD
  rw [lookupA_reverse_of_nodup (nodup_keysA_filter _ hn₁),
    lookupA_reverse_of_nodup (nodup_keysA_filter _ hn₂),
    lookupA_filter_key, lookupA_filter_key, hq p]
  by_cases hqp : q₂ p = true
  · rw [if_pos hqp, if_pos hqp]
    exact OptSEquiv_lookup ⟨hn₁, hn₂, hperm⟩ hV p
  · rw [if_neg hqp, if_neg hqp]
    exact ⟨rfl, fun v₁ v₂ h₁ h₂ => by cases h₁⟩

/-! ## Transfer through the concatenation of per-alternative pieces -/

theorem mem_keysA_concat_congr (f₁ f₂ : Schema → List (String × Schema)) :
    ∀ (S₁ S₂ : List Schema), S₁.length = S₂.length →
    (∀ pr ∈ S₁.zip S₂, ∀ p, p ∈ keysA (f₁ pr.1) ↔ p ∈ keysA (f₂ pr.2)) →
    ∀ p, (p ∈ keysA (concatPieces f₁ S₁) ↔ p ∈ keysA (concatPieces f₂ S₂)) := by
  intro S₁
  induction S₁ with
  | nil =>
    intro S₂ hlen _ p
    cases S₂ with
    | nil => exact Iff.rfl
    | cons b S₂ => simp at hlen
  | cons a S₁ ih =>
    intro S₂ hlen hmem p
    cases S₂ with
    | nil => simp at hlen
    | cons b S₂ =>
      rw [concatPieces_cons, concatPieces_cons, keysA_append, keysA_append,
        List.mem_append, List.mem_append]
      have hhd := hmem (a, b) (by rw [List.zip_cons_cons]; exact List.mem_cons_self _ _) p
      have htl := ih S₂ (by simpa using hlen)
        (fun pr hpr q => hmem pr (by rw [List.zip_cons_cons]; exact List.mem_cons_of_mem _ hpr) q) p
      exact or_congr hhd htl

theorem lookupA_concat_rev_congr (f₁ f₂ : Schema → List (String × Schema)) :
    ∀ (S₁ S₂ : List Schema), S₁.length = S₂.length →
    (∀ pr ∈ S₁.zip S₂, ∀ p, p ∈ keysA (f₁ pr.1) ↔ p ∈ keysA (f₂ pr.2)) →
    (∀ pr ∈ S₁.zip S₂, ∀ p,
      OptSEquiv (lookupA (f₁ pr.1).reverse p) (lookupA (f₂ pr.2).reverse p)) →
    ∀ p, OptSEquiv (lookupA (concatPieces f₁ S₁).reverse p)
      (lookupA (concatPieces f₂ S₂).reverse p) := by
  intro S₁
  induction S₁ with
  | nil =>
    intro S₂ hlen _ _ p
    cases S₂ with
    | nil =>
      refine ⟨rfl, fun v₁ v₂ h₁ h₂ => ?_⟩
      rw [show concatPieces f₁ ([] : List Schema) = [] from rfl] at h₁
      simp [lookupA] at h₁
    | cons b S₂ => simp at hlen
  | cons a S₁ ih =>
    intro S₂ hlen hmem hval p
    cases S₂ with
    | nil => simp at hlen
    | cons b S₂ =>
      have hlen' : S₁.length = S₂.length := by simpa using hlen
      have hmem' := fun pr hpr q =>
        hmem pr (by rw [List.zip_cons_cons]; exact List.mem_cons_of_mem _ hpr) q
      have hval' := fun pr hpr q =>
        hval pr (by rw [List.zip_cons_cons]; exact List.mem_cons_of_mem _ hpr) q
      rw [concatPieces_cons, concatPieces_cons, List.reverse_append, List.reverse_append,
        lookupA_append, lookupA_append]
      have hiff : p ∈ keysA (concatPieces f₁ S₁).reverse ↔
          p ∈ keysA (concatPieces f₂ S₂).reverse := by
        rw [keysA_reverse, keysA_reverse, List.mem_reverse, List.mem_reverse]
        exact mem_keysA_concat_congr f₁ f₂ S₁ S₂ hlen' hmem' p
      by_cases hm : p ∈ keysA (concatPieces f₁ S₁).reverse
      · rw [if_pos hm, if_pos (hiff.mp hm)]
        exact ih S₂ hlen' hmem' hval' p
      · rw [if_neg hm, if_neg (fun hc => hm (hiff.mpr hc))]
        exact hval (a, b) (by rw [List.zip_cons_cons]; exact List.mem_cons_self _ _) p

/-- Two association lists with identical (duplicate-free) key sequences
and pointwise filter-condition-agreeing values filter to the same key
sequence. -/
theorem keysA_filter_congr {β : Type} (c₁ c₂ : β → Bool) :
    ∀ (g₁ g₂ : List (String × β)), keysA g₁ = keysA g₂ → (keysA g₁).Nodup →
    (∀ k e₁ e₂, lookupA g₁ k = some e₁ → lookupA g₂ k = some e₂ → c₁ e₁ = c₂ e₂) →
    keysA (g₁.filter (fun kv => c₁ kv.2)) = keysA (g₂.filter (fun kv => c₂ kv.2)) := by
  intro g₁
  induction g₁ with
  | nil =>
    intro g₂ hkeys _ _
    have : g₂ = [] := by
      cases g₂ with
      | nil => rfl
      | cons e r => simp [keysA] at hkeys
    rw [this]
    rfl
  | cons e₁ r₁ ih =>
    intro g₂ hkeys hnd hcond
    cases g₂ with
    | nil => simp [keysA] at hkeys
    | cons e₂ r₂ =>
      rw [keysA_cons, keysA_cons] at hkeys
      have hk : e₁.1 = e₂.1 := (List.cons.injEq _ _ _ _ ▸ hkeys).1
      have hkr : keysA r₁ = keysA r₂ := (List.cons.injEq _ _ _ _ ▸ hkeys).2
      rw [keysA_cons] at hnd
      have hnd' := List.nodup_cons.mp hnd
      have hhd : c₁ e₁.2 = c₂ e₂.2 := by
        refine hcond e₁.1 e₁.2 e₂.2 ?_ ?_
        · rw [lookupA_cons, if_pos rfl]
        · rw [lookupA_cons, if_pos hk.symm]
      have hcond' : ∀ k x₁ x₂, lookupA r₁ k = some x₁ → lookupA r₂ k = some x₂ →
          c₁ x₁ = c₂ x₂ := by
        intro k x₁ x₂ h₁ h₂
        have hkm : k ∈ keysA r₁ := (lookupA_isSome_iff r₁ k).mp (by simp [h₁])
        have hne : e₁.1 ≠ k := fun hc => hnd'.1 (hc ▸ hkm)
        refine hcond k x₁ x₂ ?_ ?_
        · rw [lookupA_cons, if_neg hne]
          exact h₁
        · rw [lookupA_cons, if_neg (hk ▸ hne)]
          exact h₂
      have htail := ih r₂ hkr hnd'.2 hcond'
      rw [List.filter_cons, List.filter_cons]
      by_cases hc : c₁ e₁.2 = true
      · rw [if_pos hc, if_pos (by rw [← hhd]; exact hc), keysA_cons, keysA_cons, hk, htail]
      · rw [if_neg hc, if_neg (by rw [← hhd]; exact hc), htail]

/-! ## The seed map and the group map across `SEquiv` documents -/

theorem seedFold_congr : ∀ (S₁ S₂ : List Schema), S₁.length = S₂.length →
    (∀ pr ∈ S₁.zip S₂, SEquiv pr.1 pr.2) →
    ∀ acc : List (String × (SchemaType × List (String × Schema))),
      S₁.foldl (fun acc sch => upsertA acc sch.Name (sch.type, [])) acc =
      S₂.foldl (fun acc sch => upsertA acc sch.Name (sch.type, [])) acc := by
  intro S₁
  induction S₁ with
  | nil =>
    intro S₂ hlen _ acc
    cases S₂ with
    | nil => rfl
    | cons b S₂ => simp at hlen
  | cons a S₁ ih =>
    intro S₂ hlen hzip acc
    cases S₂ with
    | nil => simp at hlen
    | cons b S₂ =>
      have hab : SEquiv a b := hzip (a, b) (by rw [List.zip_cons_cons]; exact List.mem_cons_self _ _)
      rw [List.foldl_cons, List.foldl_cons, hab.name_eq, hab.type_eq]
      exact ih S₂ (by simpa using hlen)
        (fun pr hpr => hzip pr (by rw [List.zip_cons_cons]; exact List.mem_cons_of_mem _ hpr)) _

theorem seedGroups_congr (S₁ S₂ : List Schema) (hlen : S₁.length = S₂.length)
    (hzip : ∀ pr ∈ S₁.zip S₂, SEquiv pr.1 pr.2) : seedGroups S₁ = seedGroups S₂ :=
  seedFold_congr S₁ S₂ hlen hzip []

theorem nodup_keys_seedFold : ∀ (S : List Schema) (acc : List (String × (SchemaType × List (String × Schema)))),
    (keysA acc).Nodup →
    (keysA (S.foldl (fun acc sch => upsertA acc sch.Name (sch.type, [])) acc)).Nodup := by
  intro S
  induction S with
  | nil => exact fun acc h => h
  | cons a S ih =>
    intro acc h
    rw [List.foldl_cons]
    exact ih _ (nodup_keysA_upsertA _ _ h)

theorem nodup_keys_seedGroups (S : List Schema) : (keysA (seedGroups S)).Nodup :=
  nodup_keys_seedFold S [] (by simp [keysA])

theorem seedFold_snd : ∀ (S : List Schema) (acc : List (String × (SchemaType × List (String × Schema)))),
    (∀ nm e, lookupA acc nm = some e → e.2 = []) →
    ∀ nm e, lookupA (S.foldl (fun acc sch => upsertA acc sch.Name (sch.type, [])) acc) nm = some e →
      e.2 = [] := by
  intro S
  induction S with
  | nil => exact fun acc h => h
  | cons a S ih =>
    intro acc hacc
    rw [List.foldl_cons]
    refine ih _ ?_
    intro nm e h
    by_cases hk : a.Name = nm
    · subst hk
      rw [lookupA_upsertA_self] at h
      have h2 := (Option.some.inj h).symm
      subst h2
      rfl
    · rw [lookupA_upsertA_ne _ _ _ _ hk] at h
      exact hacc nm e h

theorem seed_snd_empty (S : List Schema) (nm : String)
    (e : SchemaType × List (String × Schema)) (h : lookupA (seedGroups S) nm = some e) :
    e.2 = [] :=
  seedFold_snd S [] (by intro nm e h; simp [lookupA] at h) nm e h

theorem keysA_distributeProps_snd (S : List Schema) :
    keysA (distributeProps S).2 = keysA (seedGroups S) := by
  unfold distributeProps
  exact keysA_outerFold S _

/-! ## Transfer of the merged map across `SEquiv` documents -/

theorem decide_common_congr (S₁ S₂ : List Schema) (hlen : S₁.length = S₂.length)
    (hzip : ∀ pr ∈ S₁.zip S₂, SEquiv pr.1 pr.2) (x : String) :
    decide (allCount S₁ x > 1) = decide (allCount S₂ x > 1) := by
  rw [allCount_congr S₁ S₂ hlen hzip x]

theorem decide_uncommon_congr (S₁ S₂ : List Schema) (hlen : S₁.length = S₂.length)
    (hzip : ∀ pr ∈ S₁.zip S₂, SEquiv pr.1 pr.2) (x : String) :
    decide (¬ allCount S₁ x > 1) = decide (¬ allCount S₂ x > 1) := by
  rw [allCount_congr S₁ S₂ hlen hzip x]

theorem mergedPieces_mem_congr (S₁ S₂ : List Schema) (hlen : S₁.length = S₂.length)
    (hzip : ∀ pr ∈ S₁.zip S₂, SEquiv pr.1 pr.2) (p : String) :
    p ∈ keysA (mergedPieces S₁) ↔ p ∈ keysA (mergedPieces S₂) := by
  unfold mergedPieces
  refine mem_keysA_concat_congr _ _ S₁ S₂ hlen (fun pr hpr q => ?_) p
  exact piece_mem_of_sequiv (hzip pr hpr)
    (fun x => decide (allCount S₁ x > 1)) (fun x => decide (allCount S₂ x > 1))
    (fun x => decide_common_congr S₁ S₂ hlen hzip x) q

theorem mergedPieces_lookup_congr (S₁ S₂ : List Schema) (hlen : S₁.length = S₂.length)
    (hzip : ∀ pr ∈ S₁.zip S₂, SEquiv pr.1 pr.2) (p : String) :
    OptSEquiv (lookupA (mergedPieces S₁).reverse p) (lookupA (mergedPieces S₂).reverse p) := by
  unfold mergedPieces
  refine lookupA_concat_rev_congr _ _ S₁ S₂ hlen (fun pr hpr q => ?_) (fun pr hpr q => ?_) p
  · exact piece_mem_of_sequiv (hzip pr hpr)
      (fun x => decide (allCount S₁ x > 1)) (fun x => decide (allCount S₂ x > 1))
      (fun x => decide_common_congr S₁ S₂ hlen hzip x) q
  · exact piece_lookup_of_sequiv (hzip pr hpr)
      (fun x => decide (allCount S₁ x > 1)) (fun x => decide (allCount S₂ x > 1))
      (fun x => decide_common_congr S₁ S₂ hlen hzip x) q

theorem merged_mem_congr (S₁ S₂ : List Schema) (hlen : S₁.length = S₂.length)
    (hzip : ∀ pr ∈ S₁.zip S₂, SEquiv pr.1 pr.2) (p : String) :
    p ∈ keysA (distributeProps S₁).1 ↔ p ∈ keysA (distributeProps S₂).1 := by
  rw [mem_keys_merged, mem_keys_merged]
  exact mergedPieces_mem_congr S₁ S₂ hlen hzip p

theorem merged_sorted_keys_congr (S₁ S₂ : List Schema) (hlen : S₁.length = S₂.length)
    (hzip : ∀ pr ∈ S₁.zip S₂, SEquiv pr.1 pr.2) :
    sortStrings (keysA (distributeProps S₁).1) = sortStrings (keysA (distributeProps S₂).1) :=
  sortStrings_congr ((List.perm_ext_iff_of_nodup (nodup_keys_merged S₁)
    (nodup_keys_merged S₂)).mpr (merged_mem_congr S₁ S₂ hlen hzip))

theorem merged_lookup_congr (S₁ S₂ : List Schema) (hlen : S₁.length = S₂.length)
    (hzip : ∀ pr ∈ S₁.zip S₂, SEquiv pr.1 pr.2) (k : String) :
    OptSEquiv (lookupA (distributeProps S₁).1 k) (lookupA (distributeProps S₂).1 k) := by
  rw [lookup_merged, lookup_merged]
  have hiff := mergedPieces_mem_congr S₁ S₂ hlen hzip k
  by_cases hm : k ∈ keysA (mergedPieces S₁)
  · rw [if_pos hm, if_pos (hiff.mp hm)]
    exact mergedPieces_lookup_congr S₁ S₂ hlen hzip k
  · rw [if_neg hm, if_neg (fun hc => hm (hiff.mpr hc))]
    exact ⟨rfl, fun v₁ v₂ h₁ h₂ => by cases h₁⟩

theorem merged_getD_congr (S₁ S₂ : List Schema) (hlen : S₁.length = S₂.length)
    (hzip : ∀ pr ∈ S₁.zip S₂, SEquiv pr.1 pr.2) (k : String) :
    SEquiv ((lookupA (distributeProps S₁).1 k).getD Schema.empty)
      ((lookupA (distributeProps S₂).1 k).getD Schema.empty) :=
  (merged_lookup_congr S₁ S₂ hlen hzip k).getD

/-! ## Transfer of the uncommon groups across `SEquiv` documents -/

theorem groupPieces_mem_congr (S₁ S₂ : List Schema) (hlen : S₁.length = S₂.length)
    (hzip : ∀ pr ∈ S₁.zip S₂, SEquiv pr.1 pr.2) (nm p : String) :
    p ∈ keysA (groupPieces S₁ nm) ↔ p ∈ keysA (groupPieces S₂ nm) := by
  unfold groupPieces
  refine mem_keysA_concat_congr _ _ S₁ S₂ hlen (fun pr hpr q => ?_) p
  have hab := hzip pr hpr
  by_cases hn : pr.1.Name = nm
  · rw [if_pos hn, if_pos (by rw [← hab.name_eq]; exact hn)]
    exact piece_mem_of_sequiv hab
      (fun x => decide (¬ allCount S₁ x > 1)) (fun x => decide (¬ allCount S₂ x > 1))
      (fun x => decide_uncommon_congr S₁ S₂ hlen hzip x) q
  · rw [if_neg hn, if_neg (by rw [← hab.name_eq]; exact hn)]

theorem groupPieces_lookup_congr (S₁ S₂ : List Schema) (hlen : S₁.length = S₂.length)
    (hzip : ∀ pr ∈ S₁.zip S₂, SEquiv pr.1 pr.2) (nm p : String) :
    OptSEquiv (lookupA (groupPieces S₁ nm).reverse p)
      (lookupA (groupPieces S₂ nm).reverse p) := by
  unfold groupPieces
  refine lookupA_concat_rev_congr _ _ S₁ S₂ hlen (fun pr hpr q => ?_) (fun pr hpr q => ?_) p
  · have hab := hzip pr hpr
    by_cases hn : pr.1.Name = nm
    · rw [if_pos hn, if_pos (by rw [← hab.name_eq]; exact hn)]
      exact piece_mem_of_sequiv hab
        (fun x => decide (¬ allCount S₁ x > 1)) (fun x => decide (¬ allCount S₂ x > 1))
        (fun x => decide_uncommon_congr S₁ S₂ hlen hzip x) q
    · rw [if_neg hn, if_neg (by rw [← hab.name_eq]; exact hn)]
  · have hab := hzip pr hpr
    by_cases hn : pr.1.Name = nm
    · rw [if_pos hn, if_pos (by rw [← hab.name_eq]; exact hn)]
      exact piece_lookup_of_sequiv hab
        (fun x => decide (¬ allCount S₁ x > 1)) (fun x => decide (¬ allCount S₂ x > 1))
        (fun x => decide_uncommon_congr S₁ S₂ hlen hzip x) q
    · rw [if_neg hn, if_neg (by rw [← hab.name_eq]; exact hn)]
      refine ⟨rfl, fun v₁ v₂ h₁ h₂ => ?_⟩
      simp [lookupA] at h₁

theorem groupProps_mem_congr (S₁ S₂ : List Schema) (hlen : S₁.length = S₂.length)
    (hzip : ∀ pr ∈ S₁.zip S₂, SEquiv pr.1 pr.2) (nm q : String) :
    q ∈ keysA (foldUpserts ([] : List (String × Schema)) (groupPieces S₁ nm)) ↔
    q ∈ keysA (foldUpserts ([] : List (String × Schema)) (groupPieces S₂ nm)) := by
  rw [mem_keys_foldUpserts, mem_keys_foldUpserts]
  have hiff := groupPieces_mem_congr S₁ S₂ hlen hzip nm q
  constructor
  · rintro (h | h)
    · simp [keysA] at h
    · exact Or.inr (hiff.mp h)
  · rintro (h | h)
    · simp [keysA] at h
    · exact Or.inr (hiff.mpr h)

theorem groupProps_perm (S₁ S₂ : List Schema) (hlen : S₁.length = S₂.length)
    (hzip : ∀ pr ∈ S₁.zip S₂, SEquiv pr.1 pr.2) (nm : String) :
    List.Perm (keysA (foldUpserts ([] : List (String × Schema)) (groupPieces S₁ nm)))
      (keysA (foldUpserts ([] : List (String × Schema)) (groupPieces S₂ nm))) :=
  (List.perm_ext_iff_of_nodup (nodup_keys_foldUpserts _ [] (by simp [keysA]))
    (nodup_keys_foldUpserts _ [] (by simp [keysA]))).mpr
    (groupProps_mem_congr S₁ S₂ hlen hzip nm)

theorem groupProps_lookup_congr (S₁ S₂ : List Schema) (hlen : S₁.length = S₂.length)
    (hzip : ∀ pr ∈ S₁.zip S₂, SEquiv pr.1 pr.2) (nm q : String) :
    ∀ v₁ v₂, lookupA (foldUpserts ([] : List (String × Schema)) (groupPieces S₁ nm)) q = some v₁ →
      lookupA (foldUpserts ([] : List (String × Schema)) (groupPieces S₂ nm)) q = some v₂ →
      SEquiv v₁ v₂ := by
  intro v₁ v₂ h₁ h₂
  rw [lookupA_foldUpserts] at h₁ h₂
  by_cases hm₁ : q ∈ keysA (groupPieces S₁ nm)
  · rw [if_pos hm₁] at h₁
    rw [if_pos ((groupPieces_mem_congr S₁ S₂ hlen hzip nm q).mp hm₁)] at h₂
    exact (groupPieces_lookup_congr S₁ S₂ hlen hzip nm q).2 v₁ v₂ h₁ h₂
  · rw [if_neg hm₁] at h₁
    simp [lookupA] at h₁

/-- Two group nodes with related parents, equal names and types, and
related property maps are related documents. -/
theorem groupSchemaOf_congr {par₁ par₂ : Schema} (hpar : par₁.rootSet = par₂.rootSet)
    (k : String) (ty : SchemaType) {props₁ props₂ : List (String × Schema)}
    (hK : KeysMatch props₁ props₂)
    (hV : ∀ q v₁ v₂, lookupA props₁ q = some v₁ → lookupA props₂ q = some v₂ → SEquiv v₁ v₂) :
    SEquiv (groupSchemaOf par₁ k ty props₁) (groupSchemaOf par₂ k ty props₂) := by
  unfold groupSchemaOf
  rw [hpar]
  refine SEquiv.mk rfl ?_ ?_ rfl ?_ ?_ rfl ?_ ?_ rfl ?_ rfl ?_
  · intro l₁ l₂ h
    cases h
  · intro l₁ l₂ q v₁ v₂ h
    cases h
  · intro l₁ l₂ h₁ h₂
    cases h₁
    cases h₂
    exact hK
  · intro l₁ l₂ q v₁ v₂ h₁ h₂ hv₁ hv₂
    cases h₁
    cases h₂
    exact hV q v₁ v₂ hv₁ hv₂
  · intro l₁ l₂ h
    cases h
  · intro l₁ l₂ q v₁ v₂ h
    cases h
  · intro a₁ a₂ h
    cases h
  · intro pr hpr
    cases hpr

theorem groups_getD_congr (S₁ S₂ : List Schema) (par₁ par₂ : Schema)
    (hpar : par₁.rootSet = par₂.rootSet) (hlen : S₁.length = S₂.length)
    (hzip : ∀ pr ∈ S₁.zip S₂, SEquiv pr.1 pr.2) (k : String) :
    SEquiv
      (groupSchemaOf par₁ k ((lookupA (distributeProps S₁).2 k).getD (.ANY, [])).1
        ((lookupA (distributeProps S₁).2 k).getD (.ANY, [])).2)
      (groupSchemaOf par₂ k ((lookupA (distributeProps S₂).2 k).getD (.ANY, [])).1
        ((lookupA (distributeProps S₂).2 k).getD (.ANY, [])).2) := by
  have hseeds : seedGroups S₁ = seedGroups S₂ := seedGroups_congr S₁ S₂ hlen hzip
  rw [lookup_groups, lookup_groups, hseeds]
  cases hsk : lookupA (seedGroups S₂) k with
  | none =>
    simp only [Option.map_none', Option.getD_none]
    exact groupSchemaOf_congr hpar k .ANY
      ⟨List.nodup_nil, List.nodup_nil, List.Perm.refl _⟩
      (fun q v₁ v₂ h₁ h₂ => by simp [lookupA] at h₁)
  | some e =>
    have he2 : e.2 = [] := seed_snd_empty S₂ k e hsk
    obtain ⟨ty, props⟩ := e
    have hp : props = [] := he2
    subst hp
    simp only [Option.map_some', Option.getD_some]
    refine groupSchemaOf_congr hpar k ty
      ⟨nodup_keys_foldUpserts _ [] (by simp [keysA]),
       nodup_keys_foldUpserts _ [] (by simp [keysA]),
       groupProps_perm S₁ S₂ hlen hzip k⟩
      (fun q v₁ v₂ h₁ h₂ => groupProps_lookup_congr S₁ S₂ hlen hzip k q v₁ v₂ h₁ h₂)

theorem oneOfKeys_congr (S₁ S₂ : List Schema) (hlen : S₁.length = S₂.length)
    (hzip : ∀ pr ∈ S₁.zip S₂, SEquiv pr.1 pr.2) :
    keysA ((distributeProps S₁).2.filter (fun g => g.2.2.length > 0)) =
    keysA ((distributeProps S₂).2.filter (fun g => g.2.2.length > 0)) := by
  have hseeds : seedGroups S₁ = seedGroups S₂ := seedGroups_congr S₁ S₂ hlen hzip
  have hkeys : keysA (distributeProps S₁).2 = keysA (distributeProps S₂).2 := by
    rw [keysA_distributeProps_snd, keysA_distributeProps_snd, hseeds]
  have hnd : (keysA (distributeProps S₁).2).Nodup := by
    rw [keysA_distributeProps_snd]
    exact nodup_keys_seedGroups S₁
  refine keysA_filter_congr (fun e => decide (e.2.length > 0)) (fun e => decide (e.2.length > 0))
    _ _ hkeys hnd ?_
  intro k e₁ e₂ h₁ h₂
  rw [lookup_groups, hseeds] at h₁
  rw [lookup_groups] at h₂
  cases hsk : lookupA (seedGroups S₂) k with
  | none =>
    rw [hsk] at h₁
    simp at h₁
  | some e =>
    rw [hsk] at h₁ h₂
    simp only [Option.map_some'] at h₁ h₂
    have he₁ := (Option.some.inj h₁).symm
    have he₂ := (Option.some.inj h₂).symm
    subst he₁
    subst he₂
    have he2 : e.2 = [] := seed_snd_empty S₂ k e hsk
    obtain ⟨ty, props⟩ := e
    have hp : props = [] := he2
    subst hp
    show decide ((foldUpserts ([] : List (String × Schema)) (groupPieces S₁ k)).length > 0) =
      decide ((foldUpserts ([] : List (String × Schema)) (groupPieces S₂ k)).length > 0)
    have hlen12 : (foldUpserts ([] : List (String × Schema)) (groupPieces S₁ k)).length =
        (foldUpserts ([] : List (String × Schema)) (groupPieces S₂ k)).length := by
      rw [← length_keysA, ← length_keysA]
      exact List.Perm.length_eq (groupProps_perm S₁ S₂ hlen hzip k)
    rw [hlen12]

/-- The merged parent node (empty title and id, description set to the
parent's name) derives exactly the parent's name. -/
theorem mergedParentOf_Name (par : Schema) (mp : List (String × Schema)) :
    (mergedParentOf par mp).Name = par.Name := rfl

/-- The name of the merged parent node depends only on the parent's
derived name, not on the merged property map. -/
theorem mergedParentOf_Name_congr {par₁ par₂ : Schema} (h : par₁.Name = par₂.Name)
    (mp₁ mp₂ : List (String × Schema)) :
    (mergedParentOf par₁ mp₁).Name = (mergedParentOf par₂ mp₂).Name := by
  rw [mergedParentOf_Name, mergedParentOf_Name, h]

/-! ## Synthesis is invariant under document key order -/

/-- The five synthesis loops simultaneously: related inputs produce
identical outputs (same type name, same emitted code, same state), at
every fuel. -/
theorem processCongr : ∀ fuel : Nat,
    (∀ cfg s₁ s₂ st, SEquiv s₁ s₂ →
      processSchema fuel cfg s₁ st = processSchema fuel cfg s₂ st) ∧
    (∀ cfg ps₁ ps₂ ks st,
      (∀ k, SEquiv ((lookupA ps₁ k).getD Schema.empty) ((lookupA ps₂ k).getD Schema.empty)) →
      processKeyList fuel cfg ps₁ ks st = processKeyList fuel cfg ps₂ ks st) ∧
    (∀ cfg pp₁ pp₂ ks tn st,
      (∀ k, SEquiv ((lookupA pp₁ k).getD Schema.empty) ((lookupA pp₂ k).getD Schema.empty)) →
      processPatternList fuel cfg pp₁ ks tn st = processPatternList fuel cfg pp₂ ks tn st) ∧
    (∀ cfg par₁ par₂ S₁ S₂ st, SEquiv par₁ par₂ → S₁.length = S₂.length →
      (∀ pr ∈ S₁.zip S₂, SEquiv pr.1 pr.2) →
      mergeSchemas fuel cfg par₁ S₁ st = mergeSchemas fuel cfg par₂ S₂ st) ∧
    (∀ cfg par₁ par₂ g₁ g₂ ks st,
      (∀ k, SEquiv
        (groupSchemaOf par₁ k ((lookupA g₁ k).getD (.ANY, [])).1
          ((lookupA g₁ k).getD (.ANY, [])).2)
        (groupSchemaOf par₂ k ((lookupA g₂ k).getD (.ANY, [])).1
          ((lookupA g₂ k).getD (.ANY, [])).2)) →
      processGroupList fuel cfg par₁ g₁ ks st = processGroupList fuel cfg par₂ g₂ ks st) := by
  intro fuel
  induction fuel with
  | zero =>
    exact ⟨fun _ _ _ _ _ => rfl, fun _ _ _ _ _ _ => rfl, fun _ _ _ _ _ _ _ => rfl,
      fun _ _ _ _ _ _ _ _ _ => rfl, fun _ _ _ _ _ _ _ _ => rfl⟩
  | succ fuel ih =>
    obtain ⟨ih1, ih2, ih3, ih4, ih5⟩ := ih
    refine ⟨?_, ?_, ?_, ?_, ?_⟩
    · -- processSchema
      intro cfg s₁ s₂ st h
      cases s₁ with
      | mk t₁ i₁ ty₁ d₁ ds₁ ps₁ ap₁ pp₁ r₁ it₁ os₁ c₁ e₁ rb₁ =>
      cases s₂ with
      | mk t₂ i₂ ty₂ d₂ ds₂ ps₂ ap₂ pp₂ r₂ it₂ os₂ c₂ e₂ rb₂ =>
      cases h with
      | mk hdsn hdsK hdsV hpsn hpsK hpsV hppn hppK hppV hitn hit hoslen hos =>
      cases ty₁ with
      | OBJECT =>
        cases ps₁ with
        | some l₁ =>
          cases ps₂ with
          | none => simp at hpsn
          | some l₂ =>
            have hKM := hpsK l₁ l₂ rfl rfl
            have hkeys : sortStrings (keysA l₁) = sortStrings (keysA l₂) :=
              sortStrings_congr hKM.2.2
            have hget : ∀ k, SEquiv ((lookupA l₁ k).getD Schema.empty)
                ((lookupA l₂ k).getD Schema.empty) :=
              fun k => SEquiv.lookup_getD hKM
                (fun k v₁ v₂ h₁ h₂ => hpsV l₁ l₂ k v₁ v₂ rfl rfl h₁ h₂) k
            simp only [processSchema, Schema.type, Schema.properties]
            rw [hkeys, ih2 cfg l₁ l₂ (sortStrings (keysA l₂)) st hget,
              show (Schema.mk t₁ i₁ .OBJECT d₁ ds₁ (some l₁) ap₁ pp₁ r₁ it₁ os₁ c₁ e₁ rb₁).Name =
                (Schema.mk t₁ i₁ .OBJECT d₁ ds₂ (some l₂) ap₁ pp₂ r₁ it₂ os₂ c₁ e₁ rb₁).Name
                from rfl]
        | none =>
          cases ps₂ with
          | some l₂ => simp at hpsn
          | none =>
            cases pp₁ with
            | some m₁ =>
              cases pp₂ with
              | none => simp at hppn
              | some m₂ =>
                have hKM := hppK m₁ m₂ rfl rfl
                have hkeys : sortStrings (keysA m₁) = sortStrings (keysA m₂) :=
                  sortStrings_congr hKM.2.2
                have hget : ∀ k, SEquiv ((lookupA m₁ k).getD Schema.empty)
                    ((lookupA m₂ k).getD Schema.empty) :=
                  fun k => SEquiv.lookup_getD hKM
                    (fun k v₁ v₂ h₁ h₂ => hppV m₁ m₂ k v₁ v₂ rfl rfl h₁ h₂) k
                simp only [processSchema, Schema.type, Schema.properties,
                  Schema.patternProperties]
                rw [hkeys]
                exact ih3 cfg m₁ m₂ (sortStrings (keysA m₂)) _ st hget
            | none =>
              cases pp₂ with
              | some m₂ => simp at hppn
              | none => rfl
      | ARRAY =>
        cases it₁ with
        | none =>
          cases it₂ with
          | none => rfl
          | some a₂ => simp at hitn
        | some a₁ =>
          cases it₂ with
          | none => simp at hitn
          | some a₂ =>
            simp only [processSchema, Schema.type, Schema.items]
            rw [ih1 cfg a₁ a₂ st (hit a₁ a₂ rfl rfl),
              show (Schema.mk t₁ i₁ .ARRAY d₁ ds₁ ps₁ ap₁ pp₁ r₁ (some a₁) os₁ c₁ e₁ rb₁).Name =
                (Schema.mk t₁ i₁ .ARRAY d₁ ds₂ ps₂ ap₁ pp₂ r₁ (some a₂) os₂ c₁ e₁ rb₁).Name
                from rfl]
      | ANY =>
        simp only [processSchema, Schema.type, Schema.oneOf, Schema.const, Schema.enum]
        rw [hoslen]
        by_cases h0 : os₂.length > 0
        · rw [if_pos h0, if_pos h0]
          exact ih4 cfg _ _ os₁ os₂ st
            (SEquiv.mk hdsn hdsK hdsV hpsn hpsK hpsV hppn hppK hppV hitn hit hoslen hos)
            hoslen hos
        · rw [if_neg h0, if_neg h0]
      | BOOLEAN => rfl
      | INTEGER => rfl
      | NUMBER => rfl
      | NULL => rfl
      | STRING => rfl
    · -- processKeyList
      intro cfg ps₁ ps₂ ks st hget
      cases ks with
      | nil => rfl
      | cons k ks =>
        simp only [processKeyList]
        rw [ih1 cfg _ _ st (hget k)]
        simp only [show ∀ st1, processKeyList fuel cfg ps₁ ks st1 =
          processKeyList fuel cfg ps₂ ks st1 from fun st1 => ih2 cfg ps₁ ps₂ ks st1 hget]
    · -- processPatternList
      intro cfg pp₁ pp₂ ks tn st hget
      cases ks with
      | nil => rfl
      | cons k ks =>
        simp only [processPatternList]
        rw [ih1 cfg _ _ st (hget k)]
        simp only [show ∀ tn st1, processPatternList fuel cfg pp₁ ks tn st1 =
          processPatternList fuel cfg pp₂ ks tn st1 from
          fun tn st1 => ih3 cfg pp₁ pp₂ ks tn st1 hget]
    · -- mergeSchemas
      intro cfg par₁ par₂ S₁ S₂ st hpar hlen hzip
      cases S₁ with
      | nil =>
        cases S₂ with
        | nil => rfl
        | cons a₂ T₂ => simp at hlen
      | cons a₁ T₁ =>
        cases S₂ with
        | nil => simp at hlen
        | cons a₂ T₂ =>
          have h12 : SEquiv a₁ a₂ :=
            hzip (a₁, a₂) (by rw [List.zip_cons_cons]; exact List.mem_cons_self _ _)
          cases T₁ with
          | nil =>
            cases T₂ with
            | nil =>
              simp only [mergeSchemas]
              exact ih1 cfg a₁ a₂ st h12
            | cons b₂ T₂ => simp at hlen
          | cons b₁ T₁ =>
            cases T₂ with
            | nil => simp at hlen
            | cons b₂ T₂ =>
              simp only [mergeSchemas]
              have hsk := merged_sorted_keys_congr _ _ hlen hzip
              have hmk := ih2 cfg (distributeProps (a₁ :: b₁ :: T₁)).1
                (distributeProps (a₂ :: b₂ :: T₂)).1
                (sortStrings (keysA (distributeProps (a₂ :: b₂ :: T₂)).1)) st
                (fun k => merged_getD_congr _ _ hlen hzip k)
              rw [hsk, hmk]
              have hok := oneOfKeys_congr _ _ hlen hzip
              simp only [hok]
              simp only [show ∀ st1, processGroupList fuel cfg par₁
                  (distributeProps (a₁ :: b₁ :: T₁)).2
                  (sortStrings (keysA ((distributeProps (a₂ :: b₂ :: T₂)).2.filter
                    (fun g => g.2.2.length > 0)))) st1 =
                processGroupList fuel cfg par₂ (distributeProps (a₂ :: b₂ :: T₂)).2
                  (sortStrings (keysA ((distributeProps (a₂ :: b₂ :: T₂)).2.filter
                    (fun g => g.2.2.length > 0)))) st1 from
                fun st1 => ih5 cfg par₁ par₂ _ _ _ st1
                  (fun k => groups_getD_congr _ _ par₁ par₂ hpar.rootSet_eq hlen hzip k)]
              simp only [mergedParentOf_Name, hpar.name_eq]
    · -- processGroupList
      intro cfg par₁ par₂ g₁ g₂ ks st hg
      cases ks with
      | nil => rfl
      | cons k ks =>
        simp only [processGroupList]
        rw [ih1 cfg _ _ st (hg k)]
        simp only [show ∀ st1, processGroupList fuel cfg par₁ g₁ ks st1 =
          processGroupList fuel cfg par₂ g₂ ks st1 from
          fun st1 => ih5 cfg par₁ par₂ g₁ g₂ ks st1 hg]

/-- A leaf node (no maps, no items, no alternatives) is related to
itself. -/
theorem SEquiv.atom_refl (t i : String) (ty : SchemaType) (d : String) (ap : Bool)
    (r c : String) (e : List String) (rb : Bool) :
    SEquiv (.mk t i ty d none none ap none r none [] c e rb)
      (.mk t i ty d none none ap none r none [] c e rb) := by
  refine SEquiv.mk rfl ?_ ?_ rfl ?_ ?_ rfl ?_ ?_ rfl ?_ rfl ?_
  · intro l₁ l₂ h
    cases h
  · intro l₁ l₂ k v₁ v₂ h
    cases h
  · intro l₁ l₂ h
    cases h
  · intro l₁ l₂ k v₁ v₂ h
    cases h
  · intro l₁ l₂ h
    cases h
  · intro l₁ l₂ k v₁ v₂ h
    cases h
  · intro a₁ a₂ h
    cases h
  · intro pr hpr
    cases hpr

/-- The two key orders of the example document are related. -/
theorem permDoc_sequiv : SEquiv permDocA permDocB := by
  unfold permDocA permDocB
  refine SEquiv.mk rfl ?_ ?_ rfl ?_ ?_ rfl ?_ ?_ rfl ?_ rfl ?_
  · intro l₁ l₂ h
    cases h
  · intro l₁ l₂ k v₁ v₂ h
    cases h
  · intro l₁ l₂ h₁ h₂
    cases h₁
    cases h₂
    exact ⟨by decide, by decide, by decide⟩
  · intro l₁ l₂ k v₁ v₂ h₁ h₂ hv₁ hv₂
    cases h₁
    cases h₂
    by_cases hka : "a" = k
    · simp [lookupA, List.find?, ← hka] at hv₁ hv₂
      subst hv₁
      subst hv₂
      exact SEquiv.atom_refl "" "" .STRING "" false "" "" [] false
    · by_cases hkb : "b" = k
      · simp [lookupA, List.find?, ← hkb] at hv₁ hv₂
        subst hv₁
        subst hv₂
        exact SEquiv.atom_refl "" "" .INTEGER "" false "" "" [] false
      · simp [lookupA, List.find?, hka, hkb] at hv₁
  · intro l₁ l₂ h
    cases h
  · intro l₁ l₂ k v₁ v₂ h
    cases h
  · intro a₁ a₂ h
    cases h
  · intro pr hpr
    cases hpr

/-- C9 (amended): synthesis output is insensitive to the on-disk key
order of the document's JSON objects — for any two documents equal up to
reordering their `definitions`/`properties`/`patternProperties` maps,
`processSchema` produces the identical result (same type expression, same
emitted type names and bodies, same processor state) at every fuel, for
every configuration and start state.  (Determinism across configurations
fails separately: the replacement-table iteration order is observable,
see the counterexample.) -/
theorem claim9_determinism_amended (fuel : Nat) (cfg : Cfg) (s₁ s₂ : Schema) (st : St)
    (h : SEquiv s₁ s₂) : processSchema fuel cfg s₁ st = processSchema fuel cfg s₂ st :=
  (processCongr fuel).1 cfg s₁ s₂ st h

theorem claim9_determinism_amended_witness :
    SEquiv permDocA permDocB ∧
      processSchema 4 defaultCfg permDocA st0 = processSchema 4 defaultCfg permDocB st0 :=
  ⟨permDoc_sequiv,
    claim9_determinism_amended 4 defaultCfg permDocA permDocB st0 permDoc_sequiv⟩

end Slipscheme
